import Mathlib

/-!
Verification of the CRM data-migration merge engine
(`scripts/merge.py`, with the backfill of `scripts/build_registry.py` and the
column accessor of `scripts/standardize.py`).

Tables are modelled as a list of column names plus a list of rows; a row is an
association list from column name to string value, and reading an absent field
yields the empty string (the behaviour of `row.get(c, "")` on string-typed
frames read with `keep_default_na=False`).  `clean` models Python `str.strip`.
The union-find `find` of the source performs path compression; compression
rewires parent pointers inside a component without changing the root returned,
so it is modelled here by pure root chasing with fuel `p.length` (enough under
the well-formedness invariant proved below).  The `_ak`/`_tx`/`_em` helper
columns of `merge_all` are materialised per row: every row-level access
`r.get("_ak", "")` equals the key function applied to that row's source field.
-/

namespace CRM

/-- A row: association list from column name to string value. -/
abbrev Row := List (String × String)

/-- `r.get(c, "")`: first value bound to `c`, else the empty string. -/
def rget (r : Row) (c : String) : String :=
  match r with
  | [] => ""
  | (c', v) :: rest => if c' = c then v else rget rest c

/-- Column assignment on one row: overwrite the first binding of `c`,
or append one. -/
def rowSet (r : Row) (c : String) (v : String) : Row :=
  match r with
  | [] => [(c, v)]
  | (c', w) :: rest => if c' = c then (c, v) :: rest else (c', w) :: rowSet rest c v

/-- A data frame: ordered column names and rows. -/
structure Table where
  cols : List String
  rows : List Row

/-- `df[c]` as a list of values, one per row. -/
def getCol (df : Table) (c : String) : List String :=
  df.rows.map (fun r => rget r c)

/-- `clean` of merge.py: trim whitespace from both ends; `""` stays `""`
(string inputs are never NaN in this pipeline). -/
def clean (x : String) : String :=
  String.mk (((x.data.dropWhile Char.isWhitespace).reverse.dropWhile Char.isWhitespace).reverse)

/-- Address match key: lowercase (character-wise), keep only `[a-z0-9]`. -/
def key_addr (x : String) : String :=
  String.mk (((clean x).data.map Char.toLower).filter (fun ch => ch.isLower || ch.isDigit))

/-- Tax match key: digits only. -/
def key_tax (x : String) : String :=
  String.mk ((clean x).data.filter Char.isDigit)

/-- Email match key: lowercase (character-wise) of the trimmed value. -/
def key_email (x : String) : String :=
  String.mk ((clean x).data.map Char.toLower)

/-- `MERGE_COLS` of rules.py. -/
def MERGE_COLS : List String :=
  ["First Name", "Last Name", "Email", "Country Code", "Phone Number", "Date of Birth",
   "Address Line", "Suburb", "Postcode", "City", "Country",
   "PIR %", "WHT %", "Tax Identification Number"]

/-- `OUT_COLS` of rules.py. -/
def OUT_COLS : List String :=
  ["Account ID", "First Name", "Last Name", "Email", "Country Code", "Phone Number",
   "Date of Birth", "Address Line", "Suburb", "Postcode", "City", "Country",
   "PIR %", "WHT %", "Tax Identification Number"]

/-- The five match-field tags, in the fixed order of merge.py's `keys` list. -/
def TAGS : List String := ["PH", "DOB", "ADDR", "TAX", "EMAIL"]

/-- The normalized match value a row carries for one tag (the `_ak`, `_tx`,
`_em` columns are materialised per row; `clean` is re-applied as in the
`keys` list of `merge_all`). -/
def keyVal (r : Row) (t : String) : String :=
  if t = "PH" then clean (rget r "Phone Number")
  else if t = "DOB" then clean (rget r "Date of Birth")
  else if t = "ADDR" then clean (key_addr (rget r "Address Line"))
  else if t = "TAX" then clean (key_tax (rget r "Tax Identification Number"))
  else if t = "EMAIL" then clean (key_email (rget r "Email"))
  else ""

/-- The row's `keys` list after dropping empty values. -/
def keysOfRow (r : Row) : List (String × String) :=
  (TAGS.map (fun t => (t, keyVal r t))).filter (fun kv => kv.2 ≠ "")

/-- Ordered pairs `(l[a], l[b])` with `a < b`, in lexicographic index order. -/
def pairs {α : Type} : List α → List (α × α)
  | [] => []
  | x :: xs => xs.map (fun y => (x, y)) ++ pairs xs

/-- Ordered triples `(l[a], l[b], l[c])` with `a < b < c`, in lexicographic
index order — the three nested loops of `merge_all`. -/
def triples {α : Type} : List α → List (α × α × α)
  | [] => []
  | x :: xs => (pairs xs).map (fun q => (x, q.1, q.2)) ++ triples xs

/-- A block key: the tag triple and the value triple. -/
abbrev BKey := (String × String × String) × (String × String × String)

/-- All block keys generated by one row. -/
def rowBlockKeys (r : Row) : List BKey :=
  (triples (keysOfRow r)).map (fun t =>
    ((t.1.1, t.2.1.1, t.2.2.1), (t.1.2, t.2.1.2, t.2.2.2)))

/-- `m.setdefault(k, []).append(i)`: append `i` to the entry of `k`,
creating the entry at the end (dict insertion order). -/
def upsert {κ : Type} [DecidableEq κ] (m : List (κ × List Nat)) (k : κ) (i : Nat) :
    List (κ × List Nat) :=
  match m with
  | [] => [(k, [i])]
  | (k', l) :: rest => if k' = k then (k', l ++ [i]) :: rest else (k', l) :: upsert rest k i

/-- The entry list stored under `k` (empty when absent). -/
def entryOf {κ : Type} [DecidableEq κ] (m : List (κ × List Nat)) (k : κ) : List Nat :=
  match m with
  | [] => []
  | (k', l) :: rest => if k' = k then l else entryOf rest k

/-- Index row `i` under every block key it generates. -/
def addRow (bs : List (BKey × List Nat)) (i : Nat) (ks : List BKey) : List (BKey × List Nat) :=
  ks.foldl (fun bs k => upsert bs k i) bs

/-- The blocking index of `merge_all`: rows in ascending index order, each
contributing all its 3-field combinations. -/
def buildBlocks (rows : List Row) : List (BKey × List Nat) :=
  (List.range rows.length).foldl (fun bs i => addRow bs i (rowBlockKeys (rows.getD i []))) []

namespace DSU

/-- `self.p[x]`, with identity outside the stored range. -/
def parentOf (p : List Nat) (x : Nat) : Nat := p.getD x x

/-- Root chasing with fuel (the source's `while self.p[x] != x` loop; path
compression does not change the returned root). -/
def findAux (p : List Nat) : Nat → Nat → Nat
  | 0, x => x
  | fuel + 1, x => if parentOf p x = x then x else findAux p fuel (parentOf p x)

/-- `dsu.find(x)`. -/
def find (p : List Nat) (x : Nat) : Nat := findAux p p.length x

/-- `dsu.union(a, b)`: attach root of `b` under root of `a`. -/
def union (p : List Nat) (a b : Nat) : List Nat :=
  let ra := find p a
  let rb := find p b
  if ra = rb then p else p.set rb ra

/-- `x` is its own parent. -/
def isRoot (p : List Nat) (x : Nat) : Prop := parentOf p x = x

/-- Number of roots among the stored indices. -/
def rootCount (p : List Nat) : Nat :=
  ((List.range p.length).filter (fun x => parentOf p x == x)).length

/-- Well-formedness: parents stay in range and every chain reaches a root
within the fuel budget. -/
def WF (p : List Nat) : Prop :=
  (∀ x, x < p.length → parentOf p x < p.length) ∧
  (∀ x, x < p.length → ∃ k, isRoot p ((parentOf p)^[k] x) ∧ k + rootCount p ≤ p.length)

end DSU

/-- Union the head of each block with every later member (chain union). -/
def chainU (p : List Nat) (h : Nat) (t : List Nat) : List Nat :=
  t.foldl (fun p j => DSU.union p h j) p

/-- Process every block: `for ids in blocks.values(): union(ids[0], j)…`. -/
def unionBlocks (p : List Nat) (bs : List (BKey × List Nat)) : List Nat :=
  bs.foldl (fun p kv =>
    match kv.2 with
    | [] => p
    | h :: t => chainU p h t) p

/-- `clusters.setdefault(dsu.find(i), []).append(i)` over `df.index`. -/
def buildClusters (p : List Nat) (n : Nat) : List (Nat × List Nat) :=
  (List.range n).foldl (fun cs i => upsert cs (DSU.find p i) i) []

/-- Completeness score of a row: designated merge columns with a non-empty
cleaned value. -/
def score (r : Row) : Nat :=
  (MERGE_COLS.filter (fun c => clean (rget r c) ≠ "")).length

/-- `scores.idxmax()` then `g.loc[...]`: the first row (in the cluster's
stored order) attaining the maximal score, with its original index. -/
def survivorPair (g : List (Nat × Row)) : Nat × Row :=
  match g with
  | [] => (0, [])
  | q :: rest => rest.foldl (fun acc q' => if score acc.2 < score q'.2 then q' else acc) q

/-- `first_nonempty`: first value whose cleaned form is non-empty (returned
cleaned), else `""`. -/
def first_nonempty : List String → String
  | [] => ""
  | v :: vs => if clean v ≠ "" then clean v else first_nonempty vs

/-- `merge_cluster`: survivor value if non-empty, else the first non-empty
value of the column over the cluster (when the column exists), else `""`. -/
def merge_cluster (cols : List String) (g : List (Nat × Row)) : Row :=
  MERGE_COLS.map (fun c =>
    let sv := clean (rget (survivorPair g).2 c)
    (c, if sv ≠ "" then sv
        else if c ∈ cols then first_nonempty (g.map (fun q => rget q.2 c)) else ""))

/-- `df.loc[idxs]` as an indexed row list (index order preserved). -/
def clusterRows (rows : List Row) (idxs : List Nat) : List (Nat × Row) :=
  idxs.map (fun i => (i, rows.getD i []))

/-- The column set of the working frame inside `merge_all`: the input
columns plus the three materialised key columns. -/
def mergedColsArg (df : Table) : List String :=
  df.cols ++ ["_ak", "_tx", "_em"]

/-- The clustering-and-merge core of `merge_all`, given that the three
df-level key columns exist. -/
def mergeAllRows (df : Table) : List Row :=
  let n := df.rows.length
  let p := unionBlocks (List.range n) (buildBlocks df.rows)
  (buildClusters p n).map (fun kv =>
    merge_cluster (mergedColsArg df) (clusterRows df.rows kv.2))

/-- `merge_all`: `df.get("Address Line", "").map(key_addr)` (and the tax and
email analogues) raise when the column is absent, since a bare string has no
`.map`; `none` models that failure. -/
def merge_all (df : Table) : Option Table :=
  if "Address Line" ∈ df.cols ∧ "Tax Identification Number" ∈ df.cols ∧ "Email" ∈ df.cols then
    some ⟨MERGE_COLS, mergeAllRows df⟩
  else none

/-- Placeholder literal of merge.py. -/
def PLACEHOLDER : String := "NOT AVAILABLE"

/-- Placeholder literal of build_registry.py. -/
def NO_DATA_PLACEHOLDER : String := "NO DATA AVAILABLE"

/-- `df[c] = ""` when `c` is absent: materialise an entirely empty column,
else leave the frame unchanged. -/
def add_empty_col_step (d : Table) (c : String) : Table :=
  if c ∈ d.cols then d else ⟨d.cols ++ [c], d.rows.map (fun r => rowSet r c "")⟩

/-- One iteration of merge.py `apply_required_placeholders`: create the
column empty if absent (`out[c] = ""`), then replace every value whose
cleaned form is empty by the placeholder. -/
def merge_backfill_step (d : Table) (c : String) : Table :=
  let d1 := add_empty_col_step d c
  ⟨d1.cols, d1.rows.map (fun r =>
    rowSet r c (if clean (rget r c) ≠ "" then rget r c else PLACEHOLDER))⟩

/-- merge.py `apply_required_placeholders`. -/
def apply_required_placeholders (required : List String) (df : Table) : Table :=
  required.foldl merge_backfill_step df

/-- One iteration of build_registry.py `apply_required_placeholders`: an
absent required column is filled with the placeholder outright; a present
one keeps values that are strings with non-blank strip (always strings
here), else gets the placeholder. -/
def registry_backfill_step (d : Table) (c : String) : Table :=
  if c ∈ d.cols then
    ⟨d.cols, d.rows.map (fun r =>
      rowSet r c (if clean (rget r c) ≠ "" then rget r c else NO_DATA_PLACEHOLDER))⟩
  else ⟨d.cols ++ [c], d.rows.map (fun r => rowSet r c NO_DATA_PLACEHOLDER)⟩

/-- build_registry.py `apply_required_placeholders`. -/
def registry_apply_required_placeholders (required : List String) (df : Table) : Table :=
  required.foldl registry_backfill_step df

/-- Lines 146–148 of merge.py's `main`: ensure every expected merge column
exists, creating absent ones as entirely empty columns. -/
def ensure_cols (df : Table) : Table :=
  MERGE_COLS.foldl add_empty_col_step df

/-- standardize.py `col`: the column when present, else a blank column
aligned to the row count. -/
def col (df : Table) (name : String) : List String :=
  if name ∈ df.cols then getCol df name else List.replicate df.rows.length ""

/-- `out.insert(0, "Account ID", range(1, len(out) + 1))`: prepend the
1-based integer identifier column (decimal form, as serialised). -/
def insert_account_ids (out0 : Table) : Table :=
  ⟨"Account ID" :: out0.cols,
    (List.range out0.rows.length).map
      (fun j => ("Account ID", Nat.repr (j + 1)) :: out0.rows.getD j [])⟩

/-- `out = out[OUT_COLS]` after creating any missing output columns. -/
def project_out_cols (out1 : Table) : Table :=
  ⟨OUT_COLS, (OUT_COLS.foldl add_empty_col_step out1).rows.map
    (fun r => OUT_COLS.map (fun c => (c, rget r c)))⟩

/-- The in-memory transform of merge.py's `main` after reading the CSV:
ensure expected columns, cluster and merge, insert the 1-based `Account ID`
column, add any missing output columns, project onto `OUT_COLS`, and backfill
required columns. -/
def main_merge (required : List String) (df : Table) : Option Table :=
  match merge_all (ensure_cols df) with
  | none => none
  | some out0 =>
    some (apply_required_placeholders required (project_out_cols (insert_account_ids out0)))

/-- Tags of both rows agreeing on a non-empty normalized value. -/
def agreeTags (r s : Row) : List String :=
  TAGS.filter (fun t => keyVal r t ≠ "" ∧ keyVal r t = keyVal s t)

/-- Number of designated match fields on which both rows agree with non-empty
normalized values. -/
def agreeCount (r s : Row) : Nat := (agreeTags r s).length

/-- The parent array computed by `merge_all`'s blocking and union phase. -/
def parentsOf (rows : List Row) : List Nat :=
  unionBlocks (List.range rows.length) (buildBlocks rows)

/-- The cluster list (root key, ascending member indices) computed by
`merge_all`. -/
def clustersOf (rows : List Row) : List (Nat × List Nat) :=
  buildClusters (parentsOf rows) rows.length

/-- `i` forms a singleton component: it is its own root and nothing else
finds it. -/
def Isolated (p : List Nat) (i : Nat) : Prop :=
  DSU.find p i = i ∧ ∀ j, j < p.length → DSU.find p j = i → j = i

/-- Decode a most-significant-first decimal digit list (proof helper used to
invert `Nat.repr`). -/
def decDigits : List Char → Nat → Nat
  | [], a => a
  | c :: cs, a => decDigits cs (10 * a + (c.toNat - 48))

/-! ### Union-find theory

`find` chases parent pointers with fuel `p.length`.  The invariant `WF`
states that every chain reaches a root within `p.length - rootCount p` steps;
each effective union consumes one root, paying for the extra chain step it
introduces, so the fuel always suffices. -/

namespace DSU

theorem findAux_spec (p : List Nat) :
    ∀ (k : Nat), ∀ {fuel x : Nat}, k ≤ fuel → isRoot p ((parentOf p)^[k] x) →
      findAux p fuel x = (parentOf p)^[k] x := by
  intro k
  induction k with
  | zero =>
    intro fuel x _ hx
    simp only [Function.iterate_zero, id] at hx ⊢
    have hx' : parentOf p x = x := hx
    cases fuel with
    | zero => rfl
    | succ f => simp [findAux, hx']
  | succ k ih =>
    intro fuel x hle hx
    cases fuel with
    | zero => omega
    | succ f =>
      by_cases hr : parentOf p x = x
      · rw [Function.iterate_fixed hr]
        simp [findAux, hr]
      · rw [Function.iterate_succ_apply] at hx ⊢
        rw [findAux, if_neg hr]
        exact ih (by omega) hx

theorem iterate_root_unique (p : List Nat) {k m x : Nat}
    (hk : isRoot p ((parentOf p)^[k] x)) (hm : isRoot p ((parentOf p)^[m] x)) :
    (parentOf p)^[k] x = (parentOf p)^[m] x := by
  rcases le_total k m with h | h
  · obtain ⟨d, rfl⟩ := Nat.exists_eq_add_of_le h
    rw [Nat.add_comm, Function.iterate_add_apply, Function.iterate_fixed hk]
  · obtain ⟨d, rfl⟩ := Nat.exists_eq_add_of_le h
    rw [Nat.add_comm, Function.iterate_add_apply, Function.iterate_fixed hm]

theorem find_eq_of_isRoot {p : List Nat} {x : Nat} (h : isRoot p x) : find p x = x :=
  findAux_spec p 0 (Nat.zero_le _) h

theorem find_spec {p : List Nat} (hwf : WF p) {x : Nat} (hx : x < p.length) :
    ∃ k, (parentOf p)^[k] x = find p x ∧ isRoot p (find p x) := by
  obtain ⟨k, hk, hle⟩ := hwf.2 x hx
  have h := @findAux_spec p k p.length x (by omega) hk
  refine ⟨k, h.symm, ?_⟩
  show isRoot p (findAux p p.length x)
  rw [h]
  exact hk

theorem find_isRoot {p : List Nat} (hwf : WF p) {x : Nat} (hx : x < p.length) :
    isRoot p (find p x) := by
  obtain ⟨k, h1, h2⟩ := find_spec hwf hx
  exact h2

theorem iterate_parentOf_lt {p : List Nat}
    (h1 : ∀ x, x < p.length → parentOf p x < p.length) {x : Nat} (hx : x < p.length) :
    ∀ k, (parentOf p)^[k] x < p.length := by
  intro k
  induction k generalizing x with
  | zero => simpa using hx
  | succ k ih =>
    rw [Function.iterate_succ_apply]
    exact ih (h1 x hx)

theorem find_lt {p : List Nat} (hwf : WF p) {x : Nat} (hx : x < p.length) :
    find p x < p.length := by
  obtain ⟨k, hk, _⟩ := find_spec hwf hx
  rw [← hk]
  exact iterate_parentOf_lt hwf.1 hx k

theorem rootCount_pos {p : List Nat} {r : Nat} (hr : isRoot p r) (hrl : r < p.length) :
    1 ≤ rootCount p := by
  have hm : r ∈ (List.range p.length).filter (fun x => parentOf p x == x) :=
    List.mem_filter.2 ⟨List.mem_range.2 hrl, by simpa [beq_iff_eq] using hr⟩
  have := List.length_pos.2 (List.ne_nil_of_mem hm)
  unfold rootCount
  omega

theorem rootCount_le (p : List Nat) : rootCount p ≤ p.length := by
  have := List.length_filter_le (fun x => parentOf p x == x) (List.range p.length)
  simpa [rootCount] using this

theorem parentOf_set {p : List Nat} {rb : Nat} (ra : Nat) (hrb : rb < p.length) (y : Nat) :
    parentOf (p.set rb ra) y = if y = rb then ra else parentOf p y := by
  unfold parentOf
  by_cases h : y = rb
  · subst h
    rw [if_pos rfl, List.getD_eq_getElem _ _ (by simpa using hrb), List.getElem_set, if_pos rfl]
  · rw [if_neg h]
    rcases Nat.lt_or_ge y p.length with hy | hy
    · rw [List.getD_eq_getElem _ _ (by simpa using hy), List.getD_eq_getElem _ _ hy,
        List.getElem_set, if_neg (fun hh => h hh.symm)]
    · rw [List.getD_eq_default _ _ (by simpa using hy), List.getD_eq_default _ _ hy]

theorem set_chain {p : List Nat} {ra rb : Nat}
    (hra : isRoot p ra) (hrb : isRoot p rb) (hne : ra ≠ rb) (hrbl : rb < p.length) :
    ∀ (k x : Nat), isRoot p ((parentOf p)^[k] x) →
      ∃ k', k' ≤ k + 1 ∧
        (parentOf (p.set rb ra))^[k'] x
          = (if (parentOf p)^[k] x = rb then ra else (parentOf p)^[k] x) ∧
        isRoot (p.set rb ra) ((parentOf (p.set rb ra))^[k'] x) := by
  have hpra : parentOf (p.set rb ra) ra = ra := by
    rw [parentOf_set ra hrbl, if_neg hne]; exact hra
  intro k
  induction k with
  | zero =>
    intro x hx
    simp only [Function.iterate_zero, id] at hx ⊢
    by_cases hxrb : x = rb
    · subst hxrb
      refine ⟨1, by omega, ?_, ?_⟩
      · rw [if_pos rfl, Function.iterate_one, parentOf_set ra hrbl, if_pos rfl]
      · rw [Function.iterate_one, parentOf_set ra hrbl, if_pos rfl]
        exact hpra
    · refine ⟨0, by omega, ?_, ?_⟩
      · simp [hxrb]
      · simp only [Function.iterate_zero, id]
        rw [isRoot, parentOf_set ra hrbl, if_neg hxrb]
        exact hx
  | succ k ih =>
    intro x hx
    by_cases hxrb : x = rb
    · subst hxrb
      rw [Function.iterate_fixed hrb]
      refine ⟨1, by omega, ?_, ?_⟩
      · rw [if_pos rfl, Function.iterate_one, parentOf_set ra hrbl, if_pos rfl]
      · rw [Function.iterate_one, parentOf_set ra hrbl, if_pos rfl]
        exact hpra
    · by_cases hr : parentOf p x = x
      · rw [Function.iterate_fixed hr]
        refine ⟨0, by omega, ?_, ?_⟩
        · simp [hxrb]
        · simp only [Function.iterate_zero, id]
          rw [isRoot, parentOf_set ra hrbl, if_neg hxrb]
          exact hr
      · rw [Function.iterate_succ_apply] at hx
        obtain ⟨k', hk', heq, hroot⟩ := ih (parentOf p x) hx
        have hstep : parentOf (p.set rb ra) x = parentOf p x := by
          rw [parentOf_set ra hrbl, if_neg hxrb]
        refine ⟨k' + 1, by omega, ?_, ?_⟩
        · rw [Function.iterate_succ_apply, hstep, Function.iterate_succ_apply]
          exact heq
        · rw [Function.iterate_succ_apply, hstep]
          exact hroot

theorem filter_length_succ_le {l : List Nat} {b : Nat} (hb : b ∈ l)
    {f g : Nat → Bool} (hfg : ∀ y, y ≠ b → f y = g y) (hf : f b = true) (hg : g b = false) :
    (l.filter g).length + 1 ≤ (l.filter f).length := by
  have himp : ∀ a, g a = true → f a = true := by
    intro a ha
    by_cases hab : a = b
    · subst hab; rw [hg] at ha; cases ha
    · rw [hfg a hab]; exact ha
  induction l with
  | nil => cases hb
  | cons h t ih =>
    by_cases hhb : h = b
    · subst hhb
      rw [List.filter_cons, List.filter_cons, hf, hg, if_pos rfl, if_neg (by simp)]
      have := (List.monotone_filter_right t himp).length_le
      simp only [List.length_cons]
      omega
    · rcases List.mem_cons.1 hb with h' | hbt
      · exact absurd h'.symm hhb
      · rw [List.filter_cons, List.filter_cons, hfg h hhb]
        cases hgh : g h
        · rw [if_neg (by simp), if_neg (by simp)]
          exact ih hbt
        · rw [if_pos rfl, if_pos rfl]
          have := ih hbt
          simp only [List.length_cons]
          omega

theorem rootCount_set {p : List Nat} {ra rb : Nat}
    (hra : isRoot p ra) (hrb : isRoot p rb) (hne : ra ≠ rb) (hrbl : rb < p.length) :
    rootCount (p.set rb ra) + 1 ≤ rootCount p := by
  unfold rootCount
  rw [List.length_set]
  apply filter_length_succ_le (List.mem_range.2 hrbl)
  · intro y hy
    rw [parentOf_set ra hrbl, if_neg hy]
  · simpa [beq_iff_eq] using hrb
  · rw [parentOf_set ra hrbl, if_pos rfl]
    simp [beq_iff_eq]
    exact hne

theorem wf_set {p : List Nat} {ra rb : Nat} (hwf : WF p)
    (hra : isRoot p ra) (hrb : isRoot p rb) (hne : ra ≠ rb)
    (hral : ra < p.length) (hrbl : rb < p.length) : WF (p.set rb ra) := by
  constructor
  · intro x hx
    rw [List.length_set] at hx ⊢
    rw [parentOf_set ra hrbl]
    by_cases h : x = rb
    · rw [if_pos h]; exact hral
    · rw [if_neg h]; exact hwf.1 x hx
  · intro x hx
    rw [List.length_set] at hx ⊢
    obtain ⟨k, hk, hle⟩ := hwf.2 x hx
    obtain ⟨k', hk'le, _, hroot⟩ := set_chain hra hrb hne hrbl k x hk
    have hrc := rootCount_set hra hrb hne hrbl
    exact ⟨k', hroot, by omega⟩

theorem find_set {p : List Nat} {ra rb : Nat} (hwf : WF p)
    (hra : isRoot p ra) (hrb : isRoot p rb) (hne : ra ≠ rb)
    (hral : ra < p.length) (hrbl : rb < p.length) (x : Nat) (hx : x < p.length) :
    find (p.set rb ra) x = if find p x = rb then ra else find p x := by
  obtain ⟨k, hk, hle⟩ := hwf.2 x hx
  have hfind : find p x = (parentOf p)^[k] x :=
    @findAux_spec p k p.length x (by omega) hk
  obtain ⟨k', hk'le, heq, hroot⟩ := set_chain hra hrb hne hrbl k x hk
  have hrc1 : 1 ≤ rootCount p := rootCount_pos hra hral
  have hfind' : find (p.set rb ra) x = (parentOf (p.set rb ra))^[k'] x := by
    unfold find
    rw [List.length_set]
    exact findAux_spec _ k' (by omega) hroot
  rw [hfind', heq, hfind]

theorem union_length (p : List Nat) (a b : Nat) : (union p a b).length = p.length := by
  unfold union
  dsimp only
  split
  · rfl
  · exact List.length_set p _ _

theorem wf_union {p : List Nat} {a b : Nat} (hwf : WF p)
    (ha : a < p.length) (hb : b < p.length) : WF (union p a b) := by
  unfold union
  dsimp only
  split
  · exact hwf
  · exact wf_set hwf (find_isRoot hwf ha) (find_isRoot hwf hb) (by assumption)
      (find_lt hwf ha) (find_lt hwf hb)

theorem find_union {p : List Nat} {a b : Nat} (hwf : WF p)
    (ha : a < p.length) (hb : b < p.length) (x : Nat) (hx : x < p.length) :
    find (union p a b) x = if find p x = find p b then find p a else find p x := by
  unfold union
  dsimp only
  split
  · rename_i h
    by_cases h2 : find p x = find p b
    · rw [if_pos h2, h2, h]
    · rw [if_neg h2]
  · rename_i h
    exact find_set hwf (find_isRoot hwf ha) (find_isRoot hwf hb) h
      (find_lt hwf ha) (find_lt hwf hb) x hx

theorem parentOf_range {n x : Nat} : parentOf (List.range n) x = x := by
  unfold parentOf
  rcases Nat.lt_or_ge x n with hx | hx
  · rw [List.getD_eq_getElem _ _ (by simpa using hx), List.getElem_range]
  · rw [List.getD_eq_default _ _ (by simpa using hx)]

theorem wf_range (n : Nat) : WF (List.range n) := by
  constructor
  · intro x hx
    rw [parentOf_range]
    simpa using hx
  · intro x hx
    refine ⟨0, ?_, ?_⟩
    · simpa [isRoot] using parentOf_range
    · have := rootCount_le (List.range n)
      simpa using this

theorem find_range {n x : Nat} : find (List.range n) x = x :=
  find_eq_of_isRoot (by simpa [isRoot] using parentOf_range)

end DSU

/-! ### Chain unions and block processing -/

theorem chainU_length (p : List Nat) (h : Nat) (t : List Nat) :
    (chainU p h t).length = p.length := by
  induction t generalizing p with
  | nil => rfl
  | cons j t ih =>
    show (chainU (DSU.union p h j) h t).length = p.length
    rw [ih, DSU.union_length]

theorem chainU_wf {p : List Nat} {h : Nat} {t : List Nat} (hwf : DSU.WF p)
    (hh : h < p.length) (ht : ∀ j ∈ t, j < p.length) : DSU.WF (chainU p h t) := by
  induction t generalizing p with
  | nil => exact hwf
  | cons j t ih =>
    have hj : j < p.length := ht j (by simp)
    show DSU.WF (chainU (DSU.union p h j) h t)
    apply ih (DSU.wf_union hwf hh hj)
    · rw [DSU.union_length]; exact hh
    · intro x hx
      rw [DSU.union_length]
      exact ht x (by simp [hx])

theorem chainU_preserves {p : List Nat} {h : Nat} {t : List Nat} (hwf : DSU.WF p)
    (hh : h < p.length) (ht : ∀ j ∈ t, j < p.length) {x y : Nat}
    (hx : x < p.length) (hy : y < p.length) (hxy : DSU.find p x = DSU.find p y) :
    DSU.find (chainU p h t) x = DSU.find (chainU p h t) y := by
  induction t generalizing p with
  | nil => exact hxy
  | cons j t ih =>
    have hj : j < p.length := ht j (by simp)
    show DSU.find (chainU (DSU.union p h j) h t) x = DSU.find (chainU (DSU.union p h j) h t) y
    apply ih (DSU.wf_union hwf hh hj)
    · rw [DSU.union_length]; exact hh
    · intro a ha
      rw [DSU.union_length]
      exact ht a (by simp [ha])
    · rw [DSU.union_length]; exact hx
    · rw [DSU.union_length]; exact hy
    · rw [DSU.find_union hwf hh hj x hx, DSU.find_union hwf hh hj y hy, hxy]

theorem chainU_connects {p : List Nat} {h : Nat} {t : List Nat} (hwf : DSU.WF p)
    (hh : h < p.length) (ht : ∀ j ∈ t, j < p.length) {j : Nat} (hj : j ∈ t) :
    DSU.find (chainU p h t) j = DSU.find (chainU p h t) h := by
  induction t generalizing p with
  | nil => cases hj
  | cons j0 t ih =>
    have hj0 : j0 < p.length := ht j0 (by simp)
    have hwf1 := DSU.wf_union hwf hh hj0
    show DSU.find (chainU (DSU.union p h j0) h t) j = DSU.find (chainU (DSU.union p h j0) h t) h
    rcases List.mem_cons.1 hj with rfl | hjt
    · apply chainU_preserves hwf1
      · rw [DSU.union_length]; exact hh
      · intro a ha
        rw [DSU.union_length]
        exact ht a (by simp [ha])
      · rw [DSU.union_length]; exact hj0
      · rw [DSU.union_length]; exact hh
      · rw [DSU.find_union hwf hh hj0 j hj0, DSU.find_union hwf hh hj0 h hh, if_pos rfl]
        by_cases hc : DSU.find p h = DSU.find p j
        · rw [if_pos hc]
        · rw [if_neg hc]
    · apply ih hwf1
      · rw [DSU.union_length]; exact hh
      · intro a ha
        rw [DSU.union_length]
        exact ht a (by simp [ha])
      · exact hjt

theorem unionBlocks_length (p : List Nat) (bs : List (BKey × List Nat)) :
    (unionBlocks p bs).length = p.length := by
  induction bs generalizing p with
  | nil => rfl
  | cons kv bs ih =>
    obtain ⟨k, ids⟩ := kv
    cases ids with
    | nil => exact ih p
    | cons h t =>
      show (unionBlocks (chainU p h t) bs).length = p.length
      rw [ih, chainU_length]

theorem unionBlocks_wf {p : List Nat} {bs : List (BKey × List Nat)} (hwf : DSU.WF p)
    (Hbs : ∀ kv ∈ bs, ∀ x ∈ kv.2, x < p.length) : DSU.WF (unionBlocks p bs) := by
  induction bs generalizing p with
  | nil => exact hwf
  | cons kv bs ih =>
    obtain ⟨k, ids⟩ := kv
    cases ids with
    | nil => exact ih hwf (fun kv hkv => Hbs kv (List.mem_cons_of_mem _ hkv))
    | cons h t =>
      have hh : h < p.length := Hbs (k, h :: t) (by simp) h (by simp)
      have ht : ∀ j ∈ t, j < p.length :=
        fun j hj => Hbs (k, h :: t) (by simp) j (by simp [hj])
      show DSU.WF (unionBlocks (chainU p h t) bs)
      apply ih (chainU_wf hwf hh ht)
      intro kv hkv x hx
      rw [chainU_length]
      exact Hbs kv (List.mem_cons_of_mem _ hkv) x hx

theorem unionBlocks_preserves {p : List Nat} {bs : List (BKey × List Nat)} (hwf : DSU.WF p)
    (Hbs : ∀ kv ∈ bs, ∀ x ∈ kv.2, x < p.length) {x y : Nat}
    (hx : x < p.length) (hy : y < p.length) (hxy : DSU.find p x = DSU.find p y) :
    DSU.find (unionBlocks p bs) x = DSU.find (unionBlocks p bs) y := by
  induction bs generalizing p with
  | nil => exact hxy
  | cons kv bs ih =>
    obtain ⟨k, ids⟩ := kv
    cases ids with
    | nil => exact ih hwf (fun kv hkv => Hbs kv (List.mem_cons_of_mem _ hkv)) hx hy hxy
    | cons h t =>
      have hh : h < p.length := Hbs (k, h :: t) (by simp) h (by simp)
      have ht : ∀ j ∈ t, j < p.length :=
        fun j hj => Hbs (k, h :: t) (by simp) j (by simp [hj])
      show DSU.find (unionBlocks (chainU p h t) bs) x = DSU.find (unionBlocks (chainU p h t) bs) y
      apply ih (chainU_wf hwf hh ht)
      · intro kv hkv a ha
        rw [chainU_length]
        exact Hbs kv (List.mem_cons_of_mem _ hkv) a ha
      · rw [chainU_length]; exact hx
      · rw [chainU_length]; exact hy
      · exact chainU_preserves hwf hh ht hx hy hxy

theorem unionBlocks_connects {p : List Nat} {bs : List (BKey × List Nat)} (hwf : DSU.WF p)
    (Hbs : ∀ kv ∈ bs, ∀ x ∈ kv.2, x < p.length) {kv : BKey × List Nat} (hkv : kv ∈ bs)
    {i j : Nat} (hi : i ∈ kv.2) (hj : j ∈ kv.2) :
    DSU.find (unionBlocks p bs) i = DSU.find (unionBlocks p bs) j := by
  induction bs generalizing p with
  | nil => cases hkv
  | cons kv0 bs ih =>
    obtain ⟨k, ids⟩ := kv0
    rcases List.mem_cons.1 hkv with rfl | hkvbs
    · cases ids with
      | nil => cases hi
      | cons h t =>
        have hh : h < p.length := Hbs (k, h :: t) (by simp) h (by simp)
        have ht : ∀ a ∈ t, a < p.length :=
          fun a ha => Hbs (k, h :: t) (by simp) a (by simp [ha])
        have hi' : i < p.length := Hbs (k, h :: t) (by simp) i hi
        have hj' : j < p.length := Hbs (k, h :: t) (by simp) j hj
        have hwf1 := chainU_wf hwf hh ht
        show DSU.find (unionBlocks (chainU p h t) bs) i
            = DSU.find (unionBlocks (chainU p h t) bs) j
        apply unionBlocks_preserves hwf1
        · intro kv hkv a ha
          rw [chainU_length]
          exact Hbs kv (List.mem_cons_of_mem _ hkv) a ha
        · rw [chainU_length]; exact hi'
        · rw [chainU_length]; exact hj'
        · have hci : DSU.find (chainU p h t) i = DSU.find (chainU p h t) h := by
            rcases List.mem_cons.1 hi with rfl | hit
            · rfl
            · exact chainU_connects hwf hh ht hit
          have hcj : DSU.find (chainU p h t) j = DSU.find (chainU p h t) h := by
            rcases List.mem_cons.1 hj with rfl | hjt
            · rfl
            · exact chainU_connects hwf hh ht hjt
          rw [hci, hcj]
    · cases ids with
      | nil => exact ih hwf (fun kv hkv => Hbs kv (List.mem_cons_of_mem _ hkv)) hkvbs
      | cons h t =>
        have hh : h < p.length := Hbs (k, h :: t) (by simp) h (by simp)
        have ht : ∀ a ∈ t, a < p.length :=
          fun a ha => Hbs (k, h :: t) (by simp) a (by simp [ha])
        show DSU.find (unionBlocks (chainU p h t) bs) i
            = DSU.find (unionBlocks (chainU p h t) bs) j
        apply ih (chainU_wf hwf hh ht) ?_ hkvbs
        intro kv hkv a ha
        rw [chainU_length]
        exact Hbs kv (List.mem_cons_of_mem _ hkv) a ha

/-! ### Dictionary (`setdefault`) lemmas -/

theorem entryOf_upsert_self {κ : Type} [DecidableEq κ] (m : List (κ × List Nat)) (k : κ)
    (i : Nat) : entryOf (upsert m k i) k = entryOf m k ++ [i] := by
  induction m with
  | nil => simp [upsert, entryOf]
  | cons kv rest ih =>
    obtain ⟨k0, l0⟩ := kv
    by_cases h : k0 = k
    · subst h
      simp [upsert, entryOf]
    · simp [upsert, entryOf, h, ih]

theorem entryOf_upsert_ne {κ : Type} [DecidableEq κ] (m : List (κ × List Nat)) {k k' : κ}
    (i : Nat) (h : k' ≠ k) : entryOf (upsert m k i) k' = entryOf m k' := by
  have hkk : k ≠ k' := fun hh => h hh.symm
  induction m with
  | nil =>
    show entryOf [(k, [i])] k' = entryOf ([] : List (κ × List Nat)) k'
    simp [entryOf, hkk]
  | cons kv rest ih =>
    obtain ⟨k0, l0⟩ := kv
    show entryOf (if k0 = k then (k0, l0 ++ [i]) :: rest else (k0, l0) :: upsert rest k i) k'
        = entryOf ((k0, l0) :: rest) k'
    by_cases h0 : k0 = k
    · have hne : k0 ≠ k' := by rw [h0]; exact hkk
      rw [if_pos h0]
      simp [entryOf, hne]
    · rw [if_neg h0]
      by_cases h1 : k0 = k'
      · simp [entryOf, h1]
      · simp [entryOf, h1, ih]

theorem keys_upsert {κ : Type} [DecidableEq κ] (m : List (κ × List Nat)) (k : κ) (i : Nat) :
    (upsert m k i).map Prod.fst
      = if k ∈ m.map Prod.fst then m.map Prod.fst else m.map Prod.fst ++ [k] := by
  induction m with
  | nil => simp [upsert]
  | cons kv rest ih =>
    obtain ⟨k0, l0⟩ := kv
    by_cases h : k0 = k
    · subst h
      simp [upsert]
    · by_cases h2 : k ∈ rest.map Prod.fst
      · simp [upsert, h, ih, h2, Ne.symm h]
      · simp [upsert, h, ih, h2, Ne.symm h]

theorem keysNodup_upsert {κ : Type} [DecidableEq κ] {m : List (κ × List Nat)}
    (h : (m.map Prod.fst).Nodup) (k : κ) (i : Nat) :
    ((upsert m k i).map Prod.fst).Nodup := by
  rw [keys_upsert]
  split
  · exact h
  · rename_i hk
    rw [List.nodup_append]
    refine ⟨h, List.nodup_singleton k, ?_⟩
    intro a ha hb
    rw [List.mem_singleton] at hb
    exact hk (hb ▸ ha)

theorem entryOf_eq_of_mem {κ : Type} [DecidableEq κ] {m : List (κ × List Nat)}
    (hnd : (m.map Prod.fst).Nodup) {k : κ} {l : List Nat} (hm : (k, l) ∈ m) :
    entryOf m k = l := by
  induction m with
  | nil => cases hm
  | cons kv rest ih =>
    obtain ⟨k0, l0⟩ := kv
    simp only [List.map_cons, List.nodup_cons] at hnd
    rcases List.mem_cons.1 hm with heq | hrest
    · injection heq with h1 h2
      subst h1
      subst h2
      simp [entryOf]
    · have hk : k ∈ rest.map Prod.fst := List.mem_map.2 ⟨(k, l), hrest, rfl⟩
      have hne : k0 ≠ k := fun h' => hnd.1 (h' ▸ hk)
      simp only [entryOf, if_neg hne]
      exact ih hnd.2 hrest

theorem mem_of_entryOf_ne {κ : Type} [DecidableEq κ] {m : List (κ × List Nat)} {k : κ}
    (h : entryOf m k ≠ []) : (k, entryOf m k) ∈ m := by
  induction m with
  | nil => simp [entryOf] at h
  | cons kv rest ih =>
    obtain ⟨k0, l0⟩ := kv
    by_cases h0 : k0 = k
    · subst h0
      simp [entryOf]
    · simp only [entryOf, if_neg h0] at h ⊢
      exact List.mem_cons_of_mem _ (ih h)

theorem upsert_structure {κ : Type} [DecidableEq κ] (m : List (κ × List Nat)) (k : κ)
    (i : Nat) :
    (k ∉ m.map Prod.fst ∧ upsert m k i = m ++ [(k, [i])]) ∨
    (∃ pre l post, m = pre ++ (k, l) :: post ∧ upsert m k i = pre ++ (k, l ++ [i]) :: post) := by
  induction m with
  | nil =>
    left
    simp [upsert]
  | cons kv rest ih =>
    obtain ⟨k0, l0⟩ := kv
    by_cases h : k0 = k
    · subst h
      right
      exact ⟨[], l0, rest, by simp, by simp [upsert]⟩
    · rcases ih with ⟨hnk, heq⟩ | ⟨pre, l, post, hm, hu⟩
      · left
        refine ⟨?_, ?_⟩
        · simp [hnk, Ne.symm h]
        · simp [upsert, h, heq]
      · right
        exact ⟨(k0, l0) :: pre, l, post, by simp [hm], by simp [upsert, h, hu]⟩

/-! ### Blocking index characterization -/

theorem entryOf_addRow {i : Nat} {ks : List BKey} :
    ∀ (bs : List (BKey × List Nat)) (k : BKey) (x : Nat),
      x ∈ entryOf (addRow bs i ks) k ↔ x ∈ entryOf bs k ∨ (x = i ∧ k ∈ ks) := by
  induction ks with
  | nil => simp [addRow]
  | cons k0 ks ih =>
    intro bs k x
    show x ∈ entryOf (addRow (upsert bs k0 i) i ks) k ↔ _
    rw [ih]
    by_cases h : k = k0
    · subst h
      rw [entryOf_upsert_self]
      simp only [List.mem_append, List.mem_cons, List.not_mem_nil, or_false]
      tauto
    · rw [entryOf_upsert_ne _ _ h]
      simp only [List.mem_cons]
      have hkk : (k = k0) → False := h
      tauto

theorem keysNodup_addRow {i : Nat} {ks : List BKey} :
    ∀ {bs : List (BKey × List Nat)}, (bs.map Prod.fst).Nodup →
      ((addRow bs i ks).map Prod.fst).Nodup := by
  induction ks with
  | nil => exact fun h => h
  | cons k0 ks ih =>
    intro bs h
    exact ih (keysNodup_upsert h k0 i)

theorem mem_entryOf_buildBlocks_aux (rows : List Row) :
    ∀ (m : Nat) (k : BKey) (x : Nat),
      x ∈ entryOf ((List.range m).foldl
        (fun bs i => addRow bs i (rowBlockKeys (rows.getD i []))) []) k
      ↔ x < m ∧ k ∈ rowBlockKeys (rows.getD x []) := by
  intro m
  induction m with
  | zero => simp [entryOf]
  | succ m ih =>
    intro k x
    rw [List.range_succ, List.foldl_append, List.foldl_cons, List.foldl_nil, entryOf_addRow,
      ih]
    constructor
    · rintro (⟨hx, hk⟩ | ⟨rfl, hk⟩)
      · exact ⟨by omega, hk⟩
      · exact ⟨by omega, hk⟩
    · rintro ⟨hx, hk⟩
      by_cases hxm : x = m
      · subst hxm
        exact Or.inr ⟨rfl, hk⟩
      · exact Or.inl ⟨by omega, hk⟩

theorem mem_entryOf_buildBlocks (rows : List Row) (k : BKey) (x : Nat) :
    x ∈ entryOf (buildBlocks rows) k
      ↔ x < rows.length ∧ k ∈ rowBlockKeys (rows.getD x []) :=
  mem_entryOf_buildBlocks_aux rows rows.length k x

theorem buildBlocks_keysNodup (rows : List Row) :
    ((buildBlocks rows).map Prod.fst).Nodup := by
  unfold buildBlocks
  generalize rows.length = m
  induction m with
  | zero => simp
  | succ m ih =>
    rw [List.range_succ, List.foldl_append, List.foldl_cons, List.foldl_nil]
    exact keysNodup_addRow ih

/-- Every index stored in any block is a valid row index. -/
theorem buildBlocks_valid (rows : List Row) :
    ∀ kv ∈ buildBlocks rows, ∀ x ∈ kv.2, x < rows.length := by
  intro kv hkv x hx
  obtain ⟨k, ids⟩ := kv
  have : entryOf (buildBlocks rows) k = ids :=
    entryOf_eq_of_mem (buildBlocks_keysNodup rows) hkv
  have hm : x ∈ entryOf (buildBlocks rows) k := this ▸ hx
  exact ((mem_entryOf_buildBlocks rows k x).1 hm).1

/-- Membership in a stored block entry coincides with generating that key. -/
theorem buildBlocks_mem_iff (rows : List Row) {kv : BKey × List Nat}
    (hkv : kv ∈ buildBlocks rows) (x : Nat) :
    x ∈ kv.2 ↔ x < rows.length ∧ kv.1 ∈ rowBlockKeys (rows.getD x []) := by
  obtain ⟨k, ids⟩ := kv
  have he : entryOf (buildBlocks rows) k = ids :=
    entryOf_eq_of_mem (buildBlocks_keysNodup rows) hkv
  rw [← he]
  exact mem_entryOf_buildBlocks rows k x

theorem isolated_union {p : List Nat} {a b i : Nat} (hwf : DSU.WF p)
    (ha : a < p.length) (hb : b < p.length) (hai : a ≠ i) (hbi : b ≠ i)
    (hi : i < p.length) (hiso : Isolated p i) : Isolated (DSU.union p a b) i := by
  obtain ⟨h1, h2⟩ := hiso
  have hfa : DSU.find p a ≠ i := fun h => hai (h2 a ha h)
  have hfb : DSU.find p b ≠ i := fun h => hbi (h2 b hb h)
  constructor
  · rw [DSU.find_union hwf ha hb i hi, h1, if_neg (fun h => hfb h.symm)]
  · intro j hj hfj
    rw [DSU.union_length] at hj
    rw [DSU.find_union hwf ha hb j hj] at hfj
    by_cases hc : DSU.find p j = DSU.find p b
    · rw [if_pos hc] at hfj
      exact absurd hfj hfa
    · rw [if_neg hc] at hfj
      exact h2 j hj hfj

theorem isolated_chainU {p : List Nat} {h i : Nat} {t : List Nat} (hwf : DSU.WF p)
    (hh : h < p.length) (ht : ∀ j ∈ t, j < p.length) (hhi : h ≠ i)
    (hti : ∀ j ∈ t, j ≠ i) (hi : i < p.length) (hiso : Isolated p i) :
    Isolated (chainU p h t) i := by
  induction t generalizing p with
  | nil => exact hiso
  | cons j t ih =>
    have hj : j < p.length := ht j (by simp)
    show Isolated (chainU (DSU.union p h j) h t) i
    apply ih (DSU.wf_union hwf hh hj)
    · rw [DSU.union_length]; exact hh
    · intro a ha
      rw [DSU.union_length]
      exact ht a (by simp [ha])
    · exact fun a ha => hti a (by simp [ha])
    · rw [DSU.union_length]; exact hi
    · exact isolated_union hwf hh hj hhi (hti j (by simp)) hi hiso

theorem isolated_unionBlocks {p : List Nat} {bs : List (BKey × List Nat)} {i : Nat}
    (hwf : DSU.WF p) (Hbs : ∀ kv ∈ bs, ∀ x ∈ kv.2, x < p.length)
    (Hni : ∀ kv ∈ bs, i ∉ kv.2) (hi : i < p.length) (hiso : Isolated p i) :
    Isolated (unionBlocks p bs) i := by
  induction bs generalizing p with
  | nil => exact hiso
  | cons kv bs ih =>
    obtain ⟨k, ids⟩ := kv
    cases ids with
    | nil =>
      exact ih hwf (fun kv hkv => Hbs kv (List.mem_cons_of_mem _ hkv))
        (fun kv hkv => Hni kv (List.mem_cons_of_mem _ hkv)) hi hiso
    | cons h t =>
      have hh : h < p.length := Hbs (k, h :: t) (by simp) h (by simp)
      have ht : ∀ a ∈ t, a < p.length :=
        fun a ha => Hbs (k, h :: t) (by simp) a (by simp [ha])
      have hni0 := Hni (k, h :: t) (by simp)
      show Isolated (unionBlocks (chainU p h t) bs) i
      apply ih (chainU_wf hwf hh ht)
      · intro kv hkv a ha
        rw [chainU_length]
        exact Hbs kv (List.mem_cons_of_mem _ hkv) a ha
      · exact fun kv hkv => Hni kv (List.mem_cons_of_mem _ hkv)
      · rw [chainU_length]
        exact hi
      · apply isolated_chainU hwf hh ht
        · exact fun h' => hni0 (h' ▸ List.mem_cons_self _ _)
        · intro a ha h'
          exact hni0 (h' ▸ List.mem_cons_of_mem _ ha)
        · exact hi
        · exact hiso

/-! ### Cluster builder characterization -/

theorem headD_append_ne_nil {l : List Nat} (h : l ≠ []) (n d : Nat) :
    (l ++ [n]).headD d = l.headD d := by
  cases l with
  | nil => exact absurd rfl h
  | cons a l => rfl

theorem headD_mem {l : List Nat} (h : l ≠ []) (d : Nat) : l.headD d ∈ l := by
  cases l with
  | nil => exact absurd rfl h
  | cons a l => simp

theorem pairwise_heads_update {pre post : List (Nat × List Nat)} {k : Nat} {l : List Nat}
    (hl : l ≠ []) (n : Nat)
    (hp : (pre ++ (k, l) :: post).Pairwise
      (fun a b => a.2.headD 0 < b.2.headD 0)) :
    (pre ++ (k, l ++ [n]) :: post).Pairwise
      (fun a b => a.2.headD 0 < b.2.headD 0) := by
  rw [List.pairwise_append] at hp ⊢
  obtain ⟨h1, h2, h3⟩ := hp
  rw [List.pairwise_cons] at h2 ⊢
  refine ⟨h1, ⟨?_, h2.2⟩, ?_⟩
  · intro b hb
    have := h2.1 b hb
    simpa only [headD_append_ne_nil hl] using this
  · intro a ha b hb
    rcases List.mem_cons.1 hb with rfl | hb'
    · have := h3 a ha (k, l) (by simp)
      simpa only [headD_append_ne_nil hl] using this
    · exact h3 a ha b (List.mem_cons_of_mem _ hb')

theorem buildClusters_succ (p : List Nat) (n : Nat) :
    buildClusters p (n + 1) = upsert (buildClusters p n) (DSU.find p n) n := by
  unfold buildClusters
  rw [List.range_succ, List.foldl_append, List.foldl_cons, List.foldl_nil]

theorem buildClusters_spec (p : List Nat) (n : Nat) :
    ((buildClusters p n).map Prod.fst).Nodup ∧
    (∀ kv ∈ buildClusters p n,
      kv.2 = (List.range n).filter (fun i => DSU.find p i == kv.1) ∧ kv.2 ≠ []) ∧
    (∀ k : Nat, k ∈ (buildClusters p n).map Prod.fst ↔ ∃ i, i < n ∧ DSU.find p i = k) ∧
    (buildClusters p n).Pairwise (fun a b => a.2.headD 0 < b.2.headD 0) := by
  induction n with
  | zero =>
    refine ⟨by simp [buildClusters], by simp [buildClusters], ?_, by simp [buildClusters]⟩
    intro k
    simp [buildClusters]
  | succ n ih =>
    obtain ⟨hnd, hchar, hpres, hpair⟩ := ih
    have hmemlt : ∀ kv ∈ buildClusters p n, ∀ i ∈ kv.2, i < n := by
      intro kv hkv i hi
      have := (hchar kv hkv).1
      rw [this] at hi
      exact List.mem_range.1 (List.mem_filter.1 hi).1
    rw [buildClusters_succ]
    rcases upsert_structure (buildClusters p n) (DSU.find p n) n with
      ⟨hnk, heq⟩ | ⟨pre, l, post, hm, hu⟩
    · -- new root: entry appended at the end
      have hfilnil : (List.range n).filter (fun i => DSU.find p i == DSU.find p n) = [] := by
        rw [List.filter_eq_nil_iff]
        intro a ha
        simp only [beq_iff_eq]
        intro hfa
        exact hnk ((hpres (DSU.find p n)).2 ⟨a, List.mem_range.1 ha, hfa⟩)
      refine ⟨keysNodup_upsert hnd _ _, ?_, ?_, ?_⟩
      · intro kv hkv
        rw [heq] at hkv
        rcases List.mem_append.1 hkv with hold | hnew
        · obtain ⟨hf, hne⟩ := hchar kv hold
          have hkne : DSU.find p n ≠ kv.1 := by
            intro h'
            exact hnk (h' ▸ List.mem_map.2 ⟨kv, hold, rfl⟩)
          constructor
          · rw [List.range_succ, List.filter_append, hf, List.filter_cons]
            simp only [List.filter_nil, beq_iff_eq]
            rw [if_neg (by simpa using hkne)]
            simp
          · exact hne
        · rw [List.mem_singleton] at hnew
          subst hnew
          constructor
          · rw [List.range_succ, List.filter_append, hfilnil, List.filter_cons]
            simp
          · simp
      · intro k
        rw [heq, List.map_append, List.mem_append]
        simp only [List.map_cons, List.map_nil, List.mem_singleton, List.mem_cons,
          List.not_mem_nil, or_false]
        rw [hpres k]
        constructor
        · rintro (⟨i, hi, hf⟩ | rfl)
          · exact ⟨i, by omega, hf⟩
          · exact ⟨n, by omega, rfl⟩
        · rintro ⟨i, hi, hf⟩
          by_cases hin : i = n
          · subst hin
            exact Or.inr hf.symm
          · exact Or.inl ⟨i, by omega, hf⟩
      · rw [heq, List.pairwise_append]
        refine ⟨hpair, by simp, ?_⟩
        intro a ha b hb
        rw [List.mem_singleton] at hb
        subst hb
        have hne := (hchar a ha).2
        have := hmemlt a ha (a.2.headD 0) (headD_mem hne 0)
        simpa using this
    · -- existing root: `n` appended to its entry
      have hmid : (DSU.find p n, l) ∈ buildClusters p n := by
        rw [hm]
        simp
      obtain ⟨hlf, hlne⟩ := hchar _ hmid
      have hknodup : ((pre ++ (DSU.find p n, l) :: post).map Prod.fst).Nodup := hm ▸ hnd
      rw [List.map_append, List.map_cons, List.nodup_append] at hknodup
      obtain ⟨hndpre, hndcons, hdisj⟩ := hknodup
      rw [List.nodup_cons] at hndcons
      have hprene : ∀ kv ∈ pre, kv.1 ≠ DSU.find p n := by
        intro kv hkv h'
        exact hdisj (List.mem_map.2 ⟨kv, hkv, rfl⟩) (by rw [h']; simp)
      have hpostne : ∀ kv ∈ post, kv.1 ≠ DSU.find p n := by
        intro kv hkv h'
        exact hndcons.1 (h' ▸ List.mem_map.2 ⟨kv, hkv, rfl⟩)
      have holdchar : ∀ kv, kv ∈ pre ∨ kv ∈ post →
          kv.2 = (List.range (n + 1)).filter (fun i => DSU.find p i == kv.1) ∧ kv.2 ≠ [] := by
        intro kv hkv
        have hold : kv ∈ buildClusters p n := by
          rw [hm]
          rcases hkv with h' | h'
          · exact List.mem_append.2 (Or.inl h')
          · exact List.mem_append.2 (Or.inr (List.mem_cons_of_mem _ h'))
        obtain ⟨hf, hne⟩ := hchar kv hold
        have hkne : DSU.find p n ≠ kv.1 := by
          rcases hkv with h' | h'
          · exact fun hh => (hprene kv h') hh.symm
          · exact fun hh => (hpostne kv h') hh.symm
        refine ⟨?_, hne⟩
        rw [List.range_succ, List.filter_append, hf, List.filter_cons]
        simp only [List.filter_nil, beq_iff_eq]
        rw [if_neg (by simpa using hkne)]
        simp
      refine ⟨keysNodup_upsert hnd _ _, ?_, ?_, ?_⟩
      · intro kv hkv
        rw [hu] at hkv
        rcases List.mem_append.1 hkv with hinpre | hincons
        · exact holdchar kv (Or.inl hinpre)
        · rcases List.mem_cons.1 hincons with rfl | hinpost
          · constructor
            · show l ++ [n] = _
              rw [List.range_succ, List.filter_append, ← hlf, List.filter_cons]
              simp
            · simp
          · exact holdchar kv (Or.inr hinpost)
      · intro k
        rw [keys_upsert, if_pos (List.mem_map.2 ⟨_, hmid, rfl⟩), hpres k]
        constructor
        · rintro ⟨i, hi, hf⟩
          exact ⟨i, by omega, hf⟩
        · rintro ⟨i, hi, hf⟩
          by_cases hin : i = n
          · have hmem : DSU.find p n ∈ (buildClusters p n).map Prod.fst :=
              List.mem_map.2 ⟨_, hmid, rfl⟩
            obtain ⟨i', hi', hf'⟩ := (hpres _).1 hmem
            refine ⟨i', hi', ?_⟩
            rw [hf', ← hin]
            exact hf
          · exact ⟨i, by omega, hf⟩
      · rw [hu]
        exact pairwise_heads_update hlne n (hm ▸ hpair)

theorem buildClusters_mem_iff {p : List Nat} {n : Nat} {kv : Nat × List Nat}
    (hkv : kv ∈ buildClusters p n) (i : Nat) :
    i ∈ kv.2 ↔ i < n ∧ DSU.find p i = kv.1 := by
  obtain ⟨_, hchar, _, _⟩ := buildClusters_spec p n
  rw [(hchar kv hkv).1, List.mem_filter, List.mem_range]
  simp [beq_iff_eq]

theorem buildClusters_cover {p : List Nat} {n : Nat} {i : Nat} (hi : i < n) :
    ∃ kv, kv ∈ buildClusters p n ∧ i ∈ kv.2 := by
  obtain ⟨_, hchar, hpres, _⟩ := buildClusters_spec p n
  obtain ⟨kv, hkv, hk1⟩ := List.mem_map.1 ((hpres (DSU.find p i)).2 ⟨i, hi, rfl⟩)
  refine ⟨kv, hkv, ?_⟩
  rw [buildClusters_mem_iff hkv]
  exact ⟨hi, hk1.symm⟩

theorem buildClusters_members_sorted {p : List Nat} {n : Nat} {kv : Nat × List Nat}
    (hkv : kv ∈ buildClusters p n) : kv.2.Pairwise (· < ·) := by
  obtain ⟨_, hchar, _, _⟩ := buildClusters_spec p n
  rw [(hchar kv hkv).1]
  exact List.Pairwise.sublist (List.filter_sublist _) (List.pairwise_lt_range n)

theorem parentsOf_length (rows : List Row) : (parentsOf rows).length = rows.length := by
  unfold parentsOf
  rw [unionBlocks_length, List.length_range]

theorem parentsOf_wf (rows : List Row) : DSU.WF (parentsOf rows) := by
  apply unionBlocks_wf (DSU.wf_range rows.length)
  intro kv hkv x hx
  rw [List.length_range]
  exact buildBlocks_valid rows kv hkv x hx

/-! ### Claim theorems -/

/-- Claim C2: the clusters computed by the cluster builder partition the
full input index set — every row index lies in some cluster, every cluster
member is a valid row index, distinct clusters are disjoint, and no cluster
repeats a member (so each index belongs to exactly one cluster). -/
theorem c2_clusters_partition (rows : List Row) :
    (∀ i, i < rows.length → ∃ kv, kv ∈ clustersOf rows ∧ i ∈ kv.2) ∧
    (∀ kv ∈ clustersOf rows, ∀ i ∈ kv.2, i < rows.length) ∧
    ((clustersOf rows).Pairwise (fun a b => ∀ i, i ∈ a.2 → i ∉ b.2)) ∧
    (∀ kv ∈ clustersOf rows, kv.2.Nodup) := by
  obtain ⟨hnd, hchar, hpres, _⟩ := buildClusters_spec (parentsOf rows) rows.length
  refine ⟨?_, ?_, ?_, ?_⟩
  · intro i hi
    exact buildClusters_cover hi
  · intro kv hkv i hi
    exact ((buildClusters_mem_iff hkv i).1 hi).1
  · have hne : (clustersOf rows).Pairwise (fun a b => a.1 ≠ b.1) := by
      have := List.pairwise_map.1 hnd
      exact this
    apply List.Pairwise.imp_of_mem ?_ hne
    intro a b ha hb hab i hia hib
    have h1 := ((buildClusters_mem_iff ha i).1 hia).2
    have h2 := ((buildClusters_mem_iff hb i).1 hib).2
    exact hab (h1 ▸ h2 ▸ rfl)
  · intro kv hkv
    rw [(hchar kv hkv).1]
    exact (List.nodup_range rows.length).filter _

/-- Claim C7: the merge transform is deterministic — equal inputs give equal
outputs — and the order-sensitive steps are keyed on original row index:
clusters are emitted in increasing order of their first (least) member, and
every cluster lists its members in ascending original-index order. -/
theorem c7_deterministic (required : List String) (df1 df2 : Table) (h : df1 = df2) :
    main_merge required df1 = main_merge required df2 ∧
    ((clustersOf df1.rows).Pairwise (fun a b => a.2.headD 0 < b.2.headD 0)) ∧
    (∀ kv ∈ clustersOf df1.rows, kv.2.Pairwise (· < ·) ∧ kv.2 ≠ []) := by
  subst h
  obtain ⟨_, hchar, _, hpair⟩ := buildClusters_spec (parentsOf df1.rows) df1.rows.length
  refine ⟨rfl, hpair, ?_⟩
  intro kv hkv
  exact ⟨buildClusters_members_sorted hkv, (hchar kv hkv).2⟩

/-- Witness for C7: determinism and index-keyed ordering instantiated on a
concrete one-row table, with the equality hypothesis discharged by `rfl`. -/
theorem c7_deterministic_witness :
    main_merge [] ⟨MERGE_COLS, [[]]⟩ = main_merge [] ⟨MERGE_COLS, [[]]⟩ ∧
    ((clustersOf (Table.mk MERGE_COLS [[]]).rows).Pairwise
      (fun a b => a.2.headD 0 < b.2.headD 0)) ∧
    (∀ kv ∈ clustersOf (Table.mk MERGE_COLS [[]]).rows,
      kv.2.Pairwise (· < ·) ∧ kv.2 ≠ []) :=
  c7_deterministic [] ⟨MERGE_COLS, [[]]⟩ ⟨MERGE_COLS, [[]]⟩ rfl

/-! ### Blocking: agreement on three fields versus common block keys -/

theorem mem_pairs {α : Type} {l : List α} {a b : α} :
    (a, b) ∈ pairs l ↔ [a, b].Sublist l := by
  induction l with
  | nil => simp [pairs]
  | cons x xs ih =>
    simp only [pairs, List.mem_append, List.mem_map]
    rw [List.sublist_cons_iff]
    constructor
    · rintro (⟨y, hy, heq⟩ | h)
      · injection heq with h1 h2
        refine Or.inr ⟨[b], ?_, List.singleton_sublist.2 (h2 ▸ hy)⟩
        rw [h1]
      · exact Or.inl (ih.1 h)
    · rintro (h | ⟨r, hr, hsub⟩)
      · exact Or.inr (ih.2 h)
      · injection hr with h1 h2
        rw [← h2] at hsub
        refine Or.inl ⟨b, List.singleton_sublist.1 hsub, ?_⟩
        rw [h1]

theorem mem_triples {α : Type} {l : List α} {a b c : α} :
    (a, b, c) ∈ triples l ↔ [a, b, c].Sublist l := by
  induction l with
  | nil => simp [triples]
  | cons x xs ih =>
    simp only [triples, List.mem_append, List.mem_map]
    rw [List.sublist_cons_iff]
    constructor
    · rintro (⟨⟨q1, q2⟩, hq, heq⟩ | h)
      · injection heq with h1 h2
        injection h2 with h3 h4
        refine Or.inr ⟨[b, c], ?_, mem_pairs.1 (by rw [← h3, ← h4]; exact hq)⟩
        rw [h1]
      · exact Or.inl (ih.1 h)
    · rintro (h | ⟨r, hr, hsub⟩)
      · exact Or.inr (ih.2 h)
      · injection hr with h1 h2
        rw [← h2] at hsub
        refine Or.inl ⟨(b, c), mem_pairs.2 hsub, ?_⟩
        rw [h1]

theorem TAGS_nodup : TAGS.Nodup := by decide

theorem mem_keysOfRow {r : Row} {kv : String × String} :
    kv ∈ keysOfRow r ↔ kv.1 ∈ TAGS ∧ kv.2 = keyVal r kv.1 ∧ kv.2 ≠ "" := by
  obtain ⟨t, v⟩ := kv
  unfold keysOfRow
  rw [List.mem_filter, List.mem_map]
  constructor
  · rintro ⟨⟨t', ht', heq⟩, hne⟩
    injection heq with h1 h2
    subst h1
    subst h2
    exact ⟨ht', rfl, by simpa using hne⟩
  · rintro ⟨h1, h2, h3⟩
    refine ⟨⟨t, h1, ?_⟩, by simpa using h3⟩
    simp only at h2 ⊢
    rw [h2]

theorem keysOfRow_tags_sublist (r : Row) :
    ((keysOfRow r).map Prod.fst).Sublist TAGS := by
  have h1 : (keysOfRow r).Sublist (TAGS.map (fun t => (t, keyVal r t))) :=
    List.filter_sublist _
  have h2 := h1.map Prod.fst
  simpa [List.map_map, Function.comp] using h2

theorem mem_agreeTags {r s : Row} {t : String} :
    t ∈ agreeTags r s ↔ t ∈ TAGS ∧ keyVal r t ≠ "" ∧ keyVal r t = keyVal s t := by
  unfold agreeTags
  rw [List.mem_filter]
  simp [decide_eq_true_eq]

theorem agreeTags_sublist (r s : Row) : (agreeTags r s).Sublist TAGS :=
  List.filter_sublist _

theorem nodup_length_le {α : Type} [DecidableEq α] {l m : List α} (hnd : l.Nodup)
    (hsub : ∀ x ∈ l, x ∈ m) : l.length ≤ m.length := by
  have h1 : l.toFinset.card = l.length := List.toFinset_card_of_nodup hnd
  have h2 : l.toFinset ⊆ m.toFinset :=
    fun x hx => List.mem_toFinset.2 (hsub x (List.mem_toFinset.1 hx))
  have h3 := Finset.card_le_card h2
  have h4 := List.toFinset_card_le m
  omega

theorem exists_common_block_key {r s : Row} (h : 3 ≤ agreeCount r s) :
    ∃ k : BKey, k ∈ rowBlockKeys r ∧ k ∈ rowBlockKeys s := by
  have hlen : 3 ≤ (agreeTags r s).length := h
  obtain ⟨t1, t2, t3, rest, hts⟩ :
      ∃ t1 t2 t3 rest, agreeTags r s = t1 :: t2 :: t3 :: rest := by
    cases h1 : agreeTags r s with
    | nil => rw [h1] at hlen; simp at hlen
    | cons t1 l1 =>
      cases l1 with
      | nil => rw [h1] at hlen; simp at hlen
      | cons t2 l2 =>
        cases l2 with
        | nil =>
          rw [h1] at hlen
          simp only [List.length_cons, List.length_nil] at hlen
          omega
        | cons t3 rest => exact ⟨t1, t2, t3, rest, rfl⟩
  have hsub3 : [t1, t2, t3].Sublist (agreeTags r s) := by
    rw [hts]
    exact List.sublist_append_left [t1, t2, t3] rest
  have hmem1 : t1 ∈ agreeTags r s := hsub3.subset (by simp)
  have hmem2 : t2 ∈ agreeTags r s := hsub3.subset (by simp)
  have hmem3 : t3 ∈ agreeTags r s := hsub3.subset (by simp)
  obtain ⟨ht1, hne1, he1⟩ := mem_agreeTags.1 hmem1
  obtain ⟨ht2, hne2, he2⟩ := mem_agreeTags.1 hmem2
  obtain ⟨ht3, hne3, he3⟩ := mem_agreeTags.1 hmem3
  have hsubT : [t1, t2, t3].Sublist TAGS := hsub3.trans (agreeTags_sublist r s)
  have hkeys : ∀ u : Row, (∀ t ∈ [t1, t2, t3], keyVal u t = keyVal r t) →
      [(t1, keyVal r t1), (t2, keyVal r t2), (t3, keyVal r t3)].Sublist (keysOfRow u) := by
    intro u hu
    have hmap : ([t1, t2, t3].map (fun t => (t, keyVal u t))).Sublist
        (TAGS.map (fun t => (t, keyVal u t))) := hsubT.map _
    have hfil := hmap.filter (fun kv => kv.2 ≠ "")
    have heqmap : [t1, t2, t3].map (fun t => (t, keyVal u t))
        = [(t1, keyVal r t1), (t2, keyVal r t2), (t3, keyVal r t3)] := by
      simp [hu t1 (by simp), hu t2 (by simp), hu t3 (by simp)]
    rw [heqmap] at hfil
    have hall : [(t1, keyVal r t1), (t2, keyVal r t2),
        (t3, keyVal r t3)].filter (fun kv => kv.2 ≠ "")
        = [(t1, keyVal r t1), (t2, keyVal r t2), (t3, keyVal r t3)] := by
      rw [List.filter_eq_self]
      intro kv hkv
      simp only [List.mem_cons, List.not_mem_nil, or_false] at hkv
      rcases hkv with rfl | rfl | rfl
      · simpa using hne1
      · simpa using hne2
      · simpa using hne3
    rw [hall] at hfil
    exact hfil
  have hsubr := hkeys r (fun t _ => rfl)
  have hsubs := hkeys s (by
    intro t ht
    simp only [List.mem_cons, List.not_mem_nil, or_false] at ht
    rcases ht with rfl | rfl | rfl
    · exact he1.symm
    · exact he2.symm
    · exact he3.symm)
  refine ⟨((t1, t2, t3), (keyVal r t1, keyVal r t2, keyVal r t3)), ?_, ?_⟩
  · exact List.mem_map.2
      ⟨((t1, keyVal r t1), (t2, keyVal r t2), (t3, keyVal r t3)),
        mem_triples.2 hsubr, rfl⟩
  · exact List.mem_map.2
      ⟨((t1, keyVal r t1), (t2, keyVal r t2), (t3, keyVal r t3)),
        mem_triples.2 hsubs, rfl⟩

theorem agree_of_common_block_key {r s : Row} {k : BKey}
    (hr : k ∈ rowBlockKeys r) (hs : k ∈ rowBlockKeys s) : 3 ≤ agreeCount r s := by
  unfold rowBlockKeys at hr hs
  obtain ⟨⟨⟨a1, av1⟩, ⟨a2, av2⟩, ⟨a3, av3⟩⟩, htr, heqr⟩ := List.mem_map.1 hr
  obtain ⟨⟨⟨b1, bw1⟩, ⟨b2, bw2⟩, ⟨b3, bw3⟩⟩, hts, heqs⟩ := List.mem_map.1 hs
  rw [← heqr] at heqs
  simp only [Prod.mk.injEq] at heqs
  obtain ⟨⟨rfl, rfl, rfl⟩, rfl, rfl, rfl⟩ := heqs
  have hsubr := mem_triples.1 htr
  have hsubs := mem_triples.1 hts
  obtain ⟨hT1, hv1, hne1⟩ := mem_keysOfRow.1 (hsubr.subset (by simp : (b1, bw1) ∈ _))
  obtain ⟨hT2, hv2, hne2⟩ := mem_keysOfRow.1 (hsubr.subset (by simp : (b2, bw2) ∈ _))
  obtain ⟨hT3, hv3, hne3⟩ := mem_keysOfRow.1 (hsubr.subset (by simp : (b3, bw3) ∈ _))
  obtain ⟨_, hw1, _⟩ := mem_keysOfRow.1 (hsubs.subset (by simp : (b1, bw1) ∈ _))
  obtain ⟨_, hw2, _⟩ := mem_keysOfRow.1 (hsubs.subset (by simp : (b2, bw2) ∈ _))
  obtain ⟨_, hw3, _⟩ := mem_keysOfRow.1 (hsubs.subset (by simp : (b3, bw3) ∈ _))
  have hag : ∀ t, t ∈ [b1, b2, b3] → t ∈ agreeTags r s := by
    intro t ht
    simp only [List.mem_cons, List.not_mem_nil, or_false] at ht
    rcases ht with rfl | rfl | rfl
    · exact mem_agreeTags.2 ⟨hT1, by rw [← hv1]; exact hne1, by rw [← hv1, ← hw1]⟩
    · exact mem_agreeTags.2 ⟨hT2, by rw [← hv2]; exact hne2, by rw [← hv2, ← hw2]⟩
    · exact mem_agreeTags.2 ⟨hT3, by rw [← hv3]; exact hne3, by rw [← hv3, ← hw3]⟩
  have htags : [b1, b2, b3].Sublist ((keysOfRow r).map Prod.fst) := by
    have := hsubr.map Prod.fst
    simpa using this
  have hnd : [b1, b2, b3].Nodup :=
    ((htags.trans (keysOfRow_tags_sublist r)).nodup TAGS_nodup)
  have := nodup_length_le hnd hag
  simpa [agreeCount] using this

theorem triples_short {α : Type} {l : List α} (h : l.length ≤ 2) : triples l = [] := by
  cases l with
  | nil => rfl
  | cons x l1 =>
    cases l1 with
    | nil => rfl
    | cons y l2 =>
      cases l2 with
      | nil => rfl
      | cons z l3 =>
        simp only [List.length_cons] at h
        omega

theorem filter_find_singleton {p : List Nat} {n i : Nat} (hi : i < n)
    (h1 : DSU.find p i = i) (h2 : ∀ j, j < n → DSU.find p j = i → j = i) :
    (List.range n).filter (fun j => DSU.find p j == i) = [i] := by
  induction n with
  | zero => omega
  | succ n ih =>
    rw [List.range_succ, List.filter_append]
    by_cases hin : i = n
    · have hfil : (List.range n).filter (fun j => DSU.find p j == i) = [] := by
        rw [List.filter_eq_nil_iff]
        intro a ha
        simp only [beq_iff_eq]
        intro hfa
        have hai := h2 a (by have := List.mem_range.1 ha; omega) hfa
        have := List.mem_range.1 ha
        omega
      rw [hfil, ← hin]
      simp [h1]
    · have hi' : i < n := by omega
      rw [ih hi' (fun j hj hfj => h2 j (by omega) hfj)]
      have hne : DSU.find p n ≠ i := fun hf => hin ((h2 n (by omega) hf).symm)
      simp [hne]

/-- Claim C1: a pair of records agreeing (after normalization) on at least 3
of the 5 designated match fields with non-empty values ends up in the same
cluster; a pair agreeing on at most 2 such fields shares no block, so the two
records are never directly linked. -/
theorem c1_link_threshold (rows : List Row) (i j : Nat)
    (hi : i < rows.length) (hj : j < rows.length) :
    (3 ≤ agreeCount (rows.getD i []) (rows.getD j []) →
      ∃ kv, kv ∈ clustersOf rows ∧ i ∈ kv.2 ∧ j ∈ kv.2) ∧
    (agreeCount (rows.getD i []) (rows.getD j []) ≤ 2 →
      ∀ kv ∈ buildBlocks rows, ¬(i ∈ kv.2 ∧ j ∈ kv.2)) := by
  constructor
  · intro h3
    obtain ⟨k, hkr, hks⟩ := exists_common_block_key h3
    have hiE : i ∈ entryOf (buildBlocks rows) k :=
      (mem_entryOf_buildBlocks rows k i).2 ⟨hi, hkr⟩
    have hjE : j ∈ entryOf (buildBlocks rows) k :=
      (mem_entryOf_buildBlocks rows k j).2 ⟨hj, hks⟩
    have hmem : (k, entryOf (buildBlocks rows) k) ∈ buildBlocks rows :=
      mem_of_entryOf_ne (List.ne_nil_of_mem hiE)
    have hvalid : ∀ kv ∈ buildBlocks rows, ∀ x ∈ kv.2,
        x < (List.range rows.length).length := by
      intro kv hkv x hx
      rw [List.length_range]
      exact buildBlocks_valid rows kv hkv x hx
    have hfind : DSU.find (parentsOf rows) i = DSU.find (parentsOf rows) j :=
      unionBlocks_connects (DSU.wf_range rows.length) hvalid hmem hiE hjE
    obtain ⟨kv, hkv, hikv⟩ :=
      @buildClusters_cover (parentsOf rows) rows.length i hi
    refine ⟨kv, hkv, hikv, ?_⟩
    have h1 := (buildClusters_mem_iff hkv i).1 hikv
    exact (buildClusters_mem_iff hkv j).2 ⟨hj, by rw [← hfind]; exact h1.2⟩
  · intro hle kv hkv hij
    have h1 := (buildBlocks_mem_iff rows hkv i).1 hij.1
    have h2 := (buildBlocks_mem_iff rows hkv j).1 hij.2
    have := agree_of_common_block_key h1.2 h2.2
    omega

/-- Witness for C1 on the spec's example rows: row 0 and row 1 share
Phone, DOB and Address; row 1 and row 2 share only Tax and Email. -/
theorem c1_link_threshold_witness :
    let r0 : Row := [("Phone Number", "0211234567"), ("Date of Birth", "1980-01-01"),
      ("Address Line", "12 Park Ave"), ("Tax Identification Number", ""), ("Email", "")]
    let r1 : Row := [("Phone Number", "0211234567"), ("Date of Birth", "1980-01-01"),
      ("Address Line", "12 Park Ave"), ("Tax Identification Number", "123456789"),
      ("Email", "jane@x.com")]
    let r2 : Row := [("Phone Number", ""), ("Date of Birth", ""), ("Address Line", ""),
      ("Tax Identification Number", "123456789"), ("Email", "jane@x.com")]
    (3 ≤ agreeCount ([r0, r1, r2].getD 0 []) ([r0, r1, r2].getD 1 []) →
      ∃ kv, kv ∈ clustersOf [r0, r1, r2] ∧ 0 ∈ kv.2 ∧ 1 ∈ kv.2) ∧
    (agreeCount ([r0, r1, r2].getD 0 []) ([r0, r1, r2].getD 1 []) ≤ 2 →
      ∀ kv ∈ buildBlocks [r0, r1, r2], ¬(0 ∈ kv.2 ∧ 1 ∈ kv.2)) :=
  c1_link_threshold _ 0 1 (by simp) (by simp)

/-- Claim C9: a record with at most two non-empty normalized match keys
generates no block entries, appears in no block, is never unioned with any
other record (it stays its own root and no other index reaches it), and is
emitted as its own singleton cluster. -/
theorem c9_sparse_record_singleton (rows : List Row) (i : Nat) (hi : i < rows.length)
    (hk : (keysOfRow (rows.getD i [])).length ≤ 2) :
    rowBlockKeys (rows.getD i []) = [] ∧
    (∀ kv ∈ buildBlocks rows, i ∉ kv.2) ∧
    Isolated (parentsOf rows) i ∧
    (i, [i]) ∈ clustersOf rows := by
  have hbk : rowBlockKeys (rows.getD i []) = [] := by
    unfold rowBlockKeys
    rw [triples_short hk]
    rfl
  have hnoblock : ∀ kv ∈ buildBlocks rows, i ∉ kv.2 := by
    intro kv hkv hmem
    have h1 := (buildBlocks_mem_iff rows hkv i).1 hmem
    rw [hbk] at h1
    cases h1.2
  have hvalid : ∀ kv ∈ buildBlocks rows, ∀ x ∈ kv.2,
      x < (List.range rows.length).length := by
    intro kv hkv x hx
    rw [List.length_range]
    exact buildBlocks_valid rows kv hkv x hx
  have hiso : Isolated (parentsOf rows) i := by
    apply isolated_unionBlocks (DSU.wf_range rows.length) hvalid hnoblock
    · rw [List.length_range]
      exact hi
    · refine ⟨DSU.find_range, ?_⟩
      intro j hj hfj
      rw [DSU.find_range] at hfj
      exact hfj
  refine ⟨hbk, hnoblock, hiso, ?_⟩
  obtain ⟨hnd, hchar, hpres, _⟩ := buildClusters_spec (parentsOf rows) rows.length
  have hfi : DSU.find (parentsOf rows) i = i := hiso.1
  have hkey : i ∈ (buildClusters (parentsOf rows) rows.length).map Prod.fst :=
    (hpres i).2 ⟨i, hi, hfi⟩
  obtain ⟨kv, hkv, hk1⟩ := List.mem_map.1 hkey
  have hfil : kv.2 = [i] := by
    rw [(hchar kv hkv).1, hk1]
    apply filter_find_singleton hi hfi
    intro j hj hfj
    exact hiso.2 j (by rw [parentsOf_length]; exact hj) hfj
  have hkveq : kv = (i, [i]) := by
    obtain ⟨k0, l0⟩ := kv
    simp only at hk1 hfil
    rw [hk1, hfil]
  rw [← hkveq]
  exact hkv

/-- Witness for C9: a single row with no populated fields has no match keys
at all. -/
theorem c9_sparse_record_singleton_witness :
    rowBlockKeys (([([] : Row)]).getD 0 []) = [] ∧
    (∀ kv ∈ buildBlocks [([] : Row)], 0 ∉ kv.2) ∧
    Isolated (parentsOf [([] : Row)]) 0 ∧
    (0, [0]) ∈ clustersOf [([] : Row)] :=
  c9_sparse_record_singleton [[]] 0 (by simp) (by decide)

/-! ### Survivor selection -/

theorem survivor_foldl_spec (rest : List (Nat × Row)) :
    ∀ q : Nat × Row, ((q :: rest).map Prod.fst).Pairwise (· < ·) →
      (rest.foldl (fun acc q' => if score acc.2 < score q'.2 then q' else acc) q = q
        ∨ rest.foldl (fun acc q' => if score acc.2 < score q'.2 then q' else acc) q ∈ rest) ∧
      (∀ x ∈ q :: rest, score x.2
        ≤ score (rest.foldl (fun acc q' => if score acc.2 < score q'.2 then q' else acc) q).2) ∧
      (∀ x ∈ q :: rest, score x.2
          = score (rest.foldl (fun acc q' => if score acc.2 < score q'.2 then q' else acc) q).2
        → (rest.foldl (fun acc q' => if score acc.2 < score q'.2 then q' else acc) q).1 ≤ x.1) := by
  induction rest with
  | nil =>
    intro q _
    refine ⟨Or.inl rfl, ?_, ?_⟩
    · intro x hx
      simp only [List.mem_singleton] at hx
      subst hx
      exact Nat.le_refl _
    · intro x hx _
      simp only [List.mem_singleton] at hx
      subst hx
      exact Nat.le_refl _
  | cons q0 rest ih =>
    intro q hsorted
    have hq0 : q.1 < q0.1 := by
      rw [List.map_cons, List.map_cons, List.pairwise_cons] at hsorted
      exact hsorted.1 q0.1 (by simp)
    have hqrest : ∀ x ∈ rest, q.1 < x.1 := by
      rw [List.map_cons, List.pairwise_cons] at hsorted
      intro x hx
      exact hsorted.1 x.1 (List.mem_map.2 ⟨x, List.mem_cons_of_mem _ hx, rfl⟩)
    have htail : ((q0 :: rest).map Prod.fst).Pairwise (· < ·) := by
      rw [List.map_cons, List.pairwise_cons] at hsorted
      exact hsorted.2
    simp only [List.foldl_cons]
    by_cases hlt : score q.2 < score q0.2
    · rw [if_pos hlt]
      obtain ⟨hmem, hmax, htie⟩ := ih q0 htail
      refine ⟨?_, ?_, ?_⟩
      · rcases hmem with h | h
        · rw [h]
          exact Or.inr (List.mem_cons_self _ _)
        · exact Or.inr (List.mem_cons_of_mem _ h)
      · intro x hx
        rcases List.mem_cons.1 hx with heq | hx'
        · have := hmax q0 (by simp)
          rw [heq]
          omega
        · exact hmax x hx'
      · intro x hx heq
        rcases List.mem_cons.1 hx with hxq | hx'
        · have := hmax q0 (by simp)
          rw [hxq] at heq ⊢
          omega
        · exact htie x hx' heq
    · rw [if_neg hlt]
      have hsorted' : ((q :: rest).map Prod.fst).Pairwise (· < ·) := by
        rw [List.map_cons, List.pairwise_cons]
        refine ⟨?_, ?_⟩
        · intro b hb
          obtain ⟨x, hx, rfl⟩ := List.mem_map.1 hb
          exact hqrest x hx
        · rw [List.map_cons, List.pairwise_cons] at htail
          exact htail.2
      obtain ⟨hmem, hmax, htie⟩ := ih q hsorted'
      refine ⟨?_, ?_, ?_⟩
      · rcases hmem with h | h
        · exact Or.inl h
        · exact Or.inr (List.mem_cons_of_mem _ h)
      · intro x hx
        rcases List.mem_cons.1 hx with heq | hx'
        · rw [heq]
          exact hmax q (by simp)
        · rcases List.mem_cons.1 hx' with heq | hx''
          · have := hmax q (by simp)
            rw [heq]
            omega
          · exact hmax x (List.mem_cons_of_mem _ hx'')
      · intro x hx heq
        rcases List.mem_cons.1 hx with hxq | hx'
        · rw [hxq] at heq ⊢
          exact htie q (by simp) heq
        · rcases List.mem_cons.1 hx' with hxq | hx''
          · have h1 := hmax q (by simp)
            have h2 := htie q (by simp) (by rw [hxq] at heq; omega)
            rw [hxq]
            omega
          · exact htie x (List.mem_cons_of_mem _ hx'') heq

/-- Claim C4: for every pipeline cluster, the survivor row has maximal
completeness score (count of merge columns with a non-empty cleaned value)
in the cluster, and among rows attaining that score the one with the
earliest original row index is chosen. -/
theorem c4_survivor_selection (rows : List Row) {kv : Nat × List Nat}
    (hkv : kv ∈ clustersOf rows) :
    survivorPair (clusterRows rows kv.2) ∈ clusterRows rows kv.2 ∧
    (∀ x ∈ clusterRows rows kv.2,
      score x.2 ≤ score (survivorPair (clusterRows rows kv.2)).2) ∧
    (∀ x ∈ clusterRows rows kv.2,
      score x.2 = score (survivorPair (clusterRows rows kv.2)).2 →
      (survivorPair (clusterRows rows kv.2)).1 ≤ x.1) := by
  obtain ⟨_, hchar, _, _⟩ := buildClusters_spec (parentsOf rows) rows.length
  have hne : kv.2 ≠ [] := (hchar kv hkv).2
  have hsorted : ((clusterRows rows kv.2).map Prod.fst).Pairwise (· < ·) := by
    have hmf : (clusterRows rows kv.2).map Prod.fst = kv.2 := by
      unfold clusterRows
      rw [List.map_map]
      have hfun : (Prod.fst ∘ fun i : Nat => (i, rows.getD i [])) = fun i : Nat => i := rfl
      rw [hfun]
      exact List.map_id' kv.2
    rw [hmf]
    exact buildClusters_members_sorted hkv
  cases hg : clusterRows rows kv.2 with
  | nil =>
    exact absurd (by simpa [clusterRows] using hg) hne
  | cons q rest =>
    rw [hg] at hsorted
    obtain ⟨hmem, hmax, htie⟩ := survivor_foldl_spec rest q hsorted
    have hsp : survivorPair (q :: rest)
        = rest.foldl (fun acc q' => if score acc.2 < score q'.2 then q' else acc) q := rfl
    rw [hsp]
    refine ⟨?_, hmax, htie⟩
    rcases hmem with h | h
    · rw [h]
      exact List.mem_cons_self _ _
    · exact List.mem_cons_of_mem _ h

/-- Witness for C4 on a one-row table. -/
theorem c4_survivor_selection_witness :
    survivorPair (clusterRows [([] : Row)] (0, [0]).2) ∈ clusterRows [([] : Row)] (0, [0]).2 ∧
    (∀ x ∈ clusterRows [([] : Row)] (0, [0]).2,
      score x.2 ≤ score (survivorPair (clusterRows [([] : Row)] (0, [0]).2)).2) ∧
    (∀ x ∈ clusterRows [([] : Row)] (0, [0]).2,
      score x.2 = score (survivorPair (clusterRows [([] : Row)] (0, [0]).2)).2 →
      (survivorPair (clusterRows [([] : Row)] (0, [0]).2)).1 ≤ x.1) :=
  @c4_survivor_selection [[]] (0, [0]) (by decide)

/-! ### Field merging -/

theorem rget_map_mk {L : List String} {f : String → String} {c : String} (hc : c ∈ L) :
    rget (L.map (fun c => (c, f c))) c = f c := by
  induction L with
  | nil => cases hc
  | cons a L ih =>
    by_cases hac : a = c
    · show (if a = c then f a else rget (L.map fun c => (c, f c)) c) = f c
      rw [if_pos hac, hac]
    · show (if a = c then f a else rget (L.map fun c => (c, f c)) c) = f c
      rw [if_neg hac]
      rcases List.mem_cons.1 hc with heq | hcl
      · exact absurd heq.symm hac
      · exact ih hcl

theorem first_nonempty_spec (l : List String) :
    ((∀ v ∈ l, clean v = "") ∧ first_nonempty l = "") ∨
    (∃ pre v post, l = pre ++ v :: post ∧ (∀ u ∈ pre, clean u = "") ∧ clean v ≠ "" ∧
      first_nonempty l = clean v) := by
  induction l with
  | nil =>
    left
    exact ⟨by simp, rfl⟩
  | cons v vs ih =>
    by_cases hv : clean v ≠ ""
    · right
      refine ⟨[], v, vs, rfl, by simp, hv, ?_⟩
      show (if clean v ≠ "" then clean v else first_nonempty vs) = clean v
      rw [if_pos hv]
    · rw [not_not] at hv
      have hstep : first_nonempty (v :: vs) = first_nonempty vs := by
        show (if clean v ≠ "" then clean v else first_nonempty vs) = first_nonempty vs
        rw [if_neg (by rw [hv]; exact fun h => h rfl)]
      rcases ih with ⟨hall, hres⟩ | ⟨pre, w, post, heq, hpre, hw, hres⟩
      · left
        refine ⟨?_, by rw [hstep]; exact hres⟩
        intro u hu
        rcases List.mem_cons.1 hu with rfl | hu'
        · exact hv
        · exact hall u hu'
      · right
        refine ⟨v :: pre, w, post, by rw [heq, List.cons_append], ?_, hw,
          by rw [hstep]; exact hres⟩
        intro u hu
        rcases List.mem_cons.1 hu with rfl | hu'
        · exact hv
        · exact hpre u hu'

theorem merge_cluster_value (cols : List String) (g : List (Nat × Row)) {c : String}
    (hc : c ∈ MERGE_COLS) :
    rget (merge_cluster cols g) c =
      (if clean (rget (survivorPair g).2 c) ≠ "" then clean (rget (survivorPair g).2 c)
       else if c ∈ cols then first_nonempty (g.map (fun q => rget q.2 c)) else "") :=
  rget_map_mk hc

/-- Claim C3: for every pipeline cluster and merge column present in the
frame, the merged value equals the survivor's cleaned value when non-empty;
otherwise the first non-empty (cleaned) value found scanning the cluster's
rows — stored in ascending original-index order — and the empty string when
the column is empty across the whole cluster. -/
theorem c3_merge_completeness (df : Table) {kv : Nat × List Nat}
    (hkv : kv ∈ clustersOf df.rows) {c : String} (hc : c ∈ MERGE_COLS)
    (hcc : c ∈ df.cols) :
    kv.2.Pairwise (· < ·) ∧
    merge_cluster (mergedColsArg df) (clusterRows df.rows kv.2) ∈ mergeAllRows df ∧
    (clean (rget (survivorPair (clusterRows df.rows kv.2)).2 c) ≠ "" →
      rget (merge_cluster (mergedColsArg df) (clusterRows df.rows kv.2)) c
        = clean (rget (survivorPair (clusterRows df.rows kv.2)).2 c)) ∧
    (clean (rget (survivorPair (clusterRows df.rows kv.2)).2 c) = "" →
      ((∀ v ∈ (clusterRows df.rows kv.2).map (fun q => rget q.2 c), clean v = "") ∧
        rget (merge_cluster (mergedColsArg df) (clusterRows df.rows kv.2)) c = "") ∨
      (∃ pre v post, (clusterRows df.rows kv.2).map (fun q => rget q.2 c)
          = pre ++ v :: post ∧
        (∀ u ∈ pre, clean u = "") ∧ clean v ≠ "" ∧
        rget (merge_cluster (mergedColsArg df) (clusterRows df.rows kv.2)) c = clean v)) := by
  have hccm : c ∈ mergedColsArg df := by
    unfold mergedColsArg
    exact List.mem_append.2 (Or.inl hcc)
  have hval := merge_cluster_value (mergedColsArg df) (clusterRows df.rows kv.2) hc
  refine ⟨buildClusters_members_sorted hkv, ?_, ?_, ?_⟩
  · unfold mergeAllRows
    exact List.mem_map.2 ⟨kv, hkv, rfl⟩
  · intro hsv
    rw [hval, if_pos hsv]
  · intro hsv
    rw [hval, if_neg (by rw [hsv]; exact fun h => h rfl), if_pos hccm]
    rcases first_nonempty_spec ((clusterRows df.rows kv.2).map (fun q => rget q.2 c)) with
      ⟨hall, hres⟩ | ⟨pre, v, post, heq, hpre, hv, hres⟩
    · exact Or.inl ⟨hall, hres⟩
    · exact Or.inr ⟨pre, v, post, heq, hpre, hv, hres⟩

/-- Witness for C3 on a one-row, one-cluster table carrying the full merge
column set. -/
theorem c3_merge_completeness_witness :
    (0, [0]).2.Pairwise (· < ·) ∧
    merge_cluster (mergedColsArg ⟨MERGE_COLS, [[]]⟩)
        (clusterRows (Table.mk MERGE_COLS [[]]).rows (0, [0]).2)
      ∈ mergeAllRows ⟨MERGE_COLS, [[]]⟩ ∧
    (clean (rget (survivorPair (clusterRows (Table.mk MERGE_COLS [[]]).rows (0, [0]).2)).2
        "Email") ≠ "" →
      rget (merge_cluster (mergedColsArg ⟨MERGE_COLS, [[]]⟩)
          (clusterRows (Table.mk MERGE_COLS [[]]).rows (0, [0]).2)) "Email"
        = clean (rget (survivorPair
            (clusterRows (Table.mk MERGE_COLS [[]]).rows (0, [0]).2)).2 "Email")) ∧
    (clean (rget (survivorPair (clusterRows (Table.mk MERGE_COLS [[]]).rows (0, [0]).2)).2
        "Email") = "" →
      ((∀ v ∈ (clusterRows (Table.mk MERGE_COLS [[]]).rows (0, [0]).2).map
          (fun q => rget q.2 "Email"), clean v = "") ∧
        rget (merge_cluster (mergedColsArg ⟨MERGE_COLS, [[]]⟩)
          (clusterRows (Table.mk MERGE_COLS [[]]).rows (0, [0]).2)) "Email" = "") ∨
      (∃ pre v post, (clusterRows (Table.mk MERGE_COLS [[]]).rows (0, [0]).2).map
            (fun q => rget q.2 "Email")
          = pre ++ v :: post ∧
        (∀ u ∈ pre, clean u = "") ∧ clean v ≠ "" ∧
        rget (merge_cluster (mergedColsArg ⟨MERGE_COLS, [[]]⟩)
          (clusterRows (Table.mk MERGE_COLS [[]]).rows (0, [0]).2)) "Email" = clean v)) :=
  @c3_merge_completeness ⟨MERGE_COLS, [[]]⟩ (0, [0]) (by decide) "Email" (by decide) (by decide)

/-! ### Backfill machinery -/

theorem rget_rowSet_self (r : Row) (c v : String) : rget (rowSet r c v) c = v := by
  induction r with
  | nil =>
    show (if c = c then v else rget [] c) = v
    rw [if_pos rfl]
  | cons kv rest ih =>
    obtain ⟨c0, w⟩ := kv
    show rget (if c0 = c then (c, v) :: rest else (c0, w) :: rowSet rest c v) c = v
    by_cases h : c0 = c
    · rw [if_pos h]
      show (if c = c then v else rget rest c) = v
      rw [if_pos rfl]
    · rw [if_neg h]
      show (if c0 = c then w else rget (rowSet rest c v) c) = v
      rw [if_neg h]
      exact ih

theorem rget_rowSet_ne (r : Row) {c c' : String} (v : String) (h : c' ≠ c) :
    rget (rowSet r c v) c' = rget r c' := by
  have hcc : c ≠ c' := fun hh => h hh.symm
  induction r with
  | nil =>
    show (if c = c' then v else rget [] c') = rget ([] : Row) c'
    rw [if_neg hcc]
  | cons kv rest ih =>
    obtain ⟨c0, w⟩ := kv
    show rget (if c0 = c then (c, v) :: rest else (c0, w) :: rowSet rest c v) c'
        = rget ((c0, w) :: rest) c'
    by_cases h0 : c0 = c
    · rw [if_pos h0]
      show (if c = c' then v else rget rest c') = (if c0 = c' then w else rget rest c')
      rw [if_neg hcc, if_neg (by rw [h0]; exact hcc)]
    · rw [if_neg h0]
      show (if c0 = c' then w else rget (rowSet rest c v) c')
          = (if c0 = c' then w else rget rest c')
      by_cases h1 : c0 = c'
      · rw [if_pos h1, if_pos h1]
      · rw [if_neg h1, if_neg h1]
        exact ih

theorem getD_map_rows {rows : List Row} (f : Row → Row) {j : Nat} (hj : j < rows.length) :
    (rows.map f).getD j [] = f (rows.getD j []) := by
  rw [List.getD_eq_getElem _ _ (by simpa using hj), List.getD_eq_getElem _ _ hj,
    List.getElem_map]

theorem add_empty_col_cols (d : Table) (c : String) :
    (add_empty_col_step d c).cols = if c ∈ d.cols then d.cols else d.cols ++ [c] := by
  unfold add_empty_col_step
  by_cases h : c ∈ d.cols
  · rw [if_pos h, if_pos h]
  · rw [if_neg h, if_neg h]

theorem add_empty_col_len (d : Table) (c : String) :
    (add_empty_col_step d c).rows.length = d.rows.length := by
  unfold add_empty_col_step
  by_cases h : c ∈ d.cols
  · rw [if_pos h]
  · rw [if_neg h]
    exact List.length_map _ _

theorem add_empty_col_rget (d : Table) (c : String) {j : Nat} (hj : j < d.rows.length)
    (c' : String) :
    rget ((add_empty_col_step d c).rows.getD j []) c' =
      if c' = c ∧ c ∉ d.cols then "" else rget (d.rows.getD j []) c' := by
  unfold add_empty_col_step
  by_cases h : c ∈ d.cols
  · rw [if_pos h, if_neg (fun hand => hand.2 h)]
  · rw [if_neg h]
    show rget ((d.rows.map _).getD j []) c' = _
    rw [getD_map_rows _ hj]
    by_cases hcc : c' = c
    · rw [if_pos ⟨hcc, h⟩, hcc, rget_rowSet_self]
    · rw [if_neg (fun hand => hcc hand.1), rget_rowSet_ne _ _ hcc]

theorem add_empty_col_self_mem (d : Table) (c : String) :
    c ∈ (add_empty_col_step d c).cols := by
  rw [add_empty_col_cols]
  by_cases h : c ∈ d.cols
  · rw [if_pos h]
    exact h
  · rw [if_neg h]
    exact List.mem_append.2 (Or.inr (by simp))

theorem merge_backfill_cols (d : Table) (c : String) :
    (merge_backfill_step d c).cols = if c ∈ d.cols then d.cols else d.cols ++ [c] :=
  add_empty_col_cols d c

theorem merge_backfill_len (d : Table) (c : String) :
    (merge_backfill_step d c).rows.length = d.rows.length := by
  unfold merge_backfill_step
  show ((add_empty_col_step d c).rows.map _).length = d.rows.length
  rw [List.length_map, add_empty_col_len]

theorem clean_empty : clean "" = "" := rfl

theorem merge_backfill_rget (d : Table) (c : String) {j : Nat} (hj : j < d.rows.length)
    (c' : String) :
    rget ((merge_backfill_step d c).rows.getD j []) c' =
      if c' = c then (if c ∈ d.cols ∧ clean (rget (d.rows.getD j []) c) ≠ ""
        then rget (d.rows.getD j []) c else PLACEHOLDER)
      else rget (d.rows.getD j []) c' := by
  unfold merge_backfill_step
  have hj1 : j < (add_empty_col_step d c).rows.length := by
    rw [add_empty_col_len]
    exact hj
  show rget (((add_empty_col_step d c).rows.map _).getD j []) c' = _
  rw [getD_map_rows _ hj1]
  have hr1 : rget ((add_empty_col_step d c).rows.getD j []) c
      = if c ∈ d.cols then rget (d.rows.getD j []) c else "" := by
    rw [add_empty_col_rget d c hj c]
    by_cases h : c ∈ d.cols
    · rw [if_neg (fun hand => hand.2 h), if_pos h]
    · rw [if_pos ⟨rfl, h⟩, if_neg h]
  by_cases hcc : c' = c
  · rw [if_pos hcc, hcc, rget_rowSet_self, hr1]
    by_cases h : c ∈ d.cols
    · rw [if_pos h]
      by_cases h2 : clean (rget (d.rows.getD j []) c) ≠ ""
      · rw [if_pos h2, if_pos ⟨h, h2⟩]
      · rw [if_neg h2, if_neg (fun hand => h2 hand.2)]
    · rw [if_neg h, if_neg (fun hh : clean "" ≠ "" => hh clean_empty),
        if_neg (fun hand => h hand.1)]
  · rw [if_neg hcc, rget_rowSet_ne _ _ hcc, add_empty_col_rget d c hj c',
      if_neg (fun hand => hcc hand.1)]

theorem registry_backfill_cols (d : Table) (c : String) :
    (registry_backfill_step d c).cols = if c ∈ d.cols then d.cols else d.cols ++ [c] := by
  unfold registry_backfill_step
  by_cases h : c ∈ d.cols
  · rw [if_pos h, if_pos h]
  · rw [if_neg h, if_neg h]

theorem registry_backfill_len (d : Table) (c : String) :
    (registry_backfill_step d c).rows.length = d.rows.length := by
  unfold registry_backfill_step
  by_cases h : c ∈ d.cols
  · rw [if_pos h]
    exact List.length_map _ _
  · rw [if_neg h]
    exact List.length_map _ _

theorem registry_backfill_rget (d : Table) (c : String) {j : Nat} (hj : j < d.rows.length)
    (c' : String) :
    rget ((registry_backfill_step d c).rows.getD j []) c' =
      if c' = c then (if c ∈ d.cols ∧ clean (rget (d.rows.getD j []) c) ≠ ""
        then rget (d.rows.getD j []) c else NO_DATA_PLACEHOLDER)
      else rget (d.rows.getD j []) c' := by
  unfold registry_backfill_step
  by_cases h : c ∈ d.cols
  · rw [if_pos h]
    show rget ((d.rows.map _).getD j []) c' = _
    rw [getD_map_rows _ hj]
    by_cases hcc : c' = c
    · rw [if_pos hcc, hcc, rget_rowSet_self]
      by_cases h2 : clean (rget (d.rows.getD j []) c) ≠ ""
      · rw [if_pos h2, if_pos ⟨h, h2⟩]
      · rw [if_neg h2, if_neg (fun hand => h2 hand.2)]
    · rw [if_neg hcc, rget_rowSet_ne _ _ hcc]
  · rw [if_neg h]
    show rget ((d.rows.map _).getD j []) c' = _
    rw [getD_map_rows _ hj]
    by_cases hcc : c' = c
    · rw [if_pos hcc, hcc, rget_rowSet_self, if_neg (fun hand => h hand.1)]
    · rw [if_neg hcc, rget_rowSet_ne _ _ hcc]

theorem backfill_fold_char {step : Table → String → Table} {ph : String}
    (hph : clean ph ≠ "")
    (hcols : ∀ d c, (step d c).cols = if c ∈ d.cols then d.cols else d.cols ++ [c])
    (hlen : ∀ d c, (step d c).rows.length = d.rows.length)
    (hval : ∀ d c, ∀ {j : Nat}, j < d.rows.length → ∀ c',
      rget ((step d c).rows.getD j []) c' =
        if c' = c then (if c ∈ d.cols ∧ clean (rget (d.rows.getD j []) c) ≠ ""
          then rget (d.rows.getD j []) c else ph)
        else rget (d.rows.getD j []) c') :
    ∀ (required : List String) (d : Table),
      (required.foldl step d).rows.length = d.rows.length ∧
      (∀ c', c' ∈ (required.foldl step d).cols ↔ c' ∈ d.cols ∨ c' ∈ required) ∧
      (∀ j, j < d.rows.length → ∀ c',
        rget ((required.foldl step d).rows.getD j []) c' =
          if c' ∈ required ∧ ¬(c' ∈ d.cols ∧ clean (rget (d.rows.getD j []) c') ≠ "")
          then ph
          else rget (d.rows.getD j []) c') := by
  intro required
  induction required with
  | nil =>
    intro d
    refine ⟨rfl, by simp, ?_⟩
    intro j hj c'
    rw [if_neg (fun hand => List.not_mem_nil c' hand.1)]
    rfl
  | cons c0 rest ih =>
    intro d
    obtain ⟨ihlen, ihcols, ihval⟩ := ih (step d c0)
    have hmemstep : ∀ c', c' ∈ (step d c0).cols ↔ c' ∈ d.cols ∨ c' = c0 := by
      intro c'
      rw [hcols]
      by_cases h : c0 ∈ d.cols
      · rw [if_pos h]
        constructor
        · exact Or.inl
        · rintro (h' | rfl)
          · exact h'
          · exact h
      · rw [if_neg h]
        rw [List.mem_append, List.mem_singleton]
    refine ⟨?_, ?_, ?_⟩
    · show (rest.foldl step (step d c0)).rows.length = d.rows.length
      rw [ihlen, hlen]
    · intro c'
      show c' ∈ (rest.foldl step (step d c0)).cols ↔ _
      rw [ihcols c', hmemstep c', List.mem_cons]
      tauto
    · intro j hj c'
      have hj1 : j < (step d c0).rows.length := by
        rw [hlen]
        exact hj
      show rget ((rest.foldl step (step d c0)).rows.getD j []) c' = _
      rw [ihval j hj1 c']
      by_cases hcc : c' = c0
      · have hc0mem : c0 ∈ (step d c0).cols := by
          rw [hmemstep]
          exact Or.inr rfl
        have hVne : clean (rget ((step d c0).rows.getD j []) c0) ≠ "" := by
          rw [hval d c0 hj c0, if_pos rfl]
          by_cases hA : c0 ∈ d.cols ∧ clean (rget (d.rows.getD j []) c0) ≠ ""
          · rw [if_pos hA]
            exact hA.2
          · rw [if_neg hA]
            exact hph
        rw [hcc]
        rw [if_neg (fun hand => hand.2 ⟨hc0mem, hVne⟩)]
        rw [hval d c0 hj c0, if_pos rfl]
        by_cases hA : c0 ∈ d.cols ∧ clean (rget (d.rows.getD j []) c0) ≠ ""
        · rw [if_pos hA, if_neg (fun hand => hand.2 hA)]
        · rw [if_neg hA, if_pos ⟨List.mem_cons_self _ _, hA⟩]
      · have hstepval : rget ((step d c0).rows.getD j []) c'
            = rget (d.rows.getD j []) c' := by
          rw [hval d c0 hj c', if_neg hcc]
        have hcols' : c' ∈ (step d c0).cols ↔ c' ∈ d.cols := by
          rw [hmemstep]
          constructor
          · rintro (h' | h')
            · exact h'
            · exact absurd h' hcc
          · exact Or.inl
        by_cases hB : c' ∈ rest ∧ ¬(c' ∈ d.cols ∧ clean (rget (d.rows.getD j []) c') ≠ "")
        · have hB' : c' ∈ rest
              ∧ ¬(c' ∈ (step d c0).cols
                  ∧ clean (rget ((step d c0).rows.getD j []) c') ≠ "") := by
            refine ⟨hB.1, ?_⟩
            rintro ⟨hm, hcl⟩
            rw [hstepval] at hcl
            exact hB.2 ⟨hcols'.1 hm, hcl⟩
          rw [if_pos hB', if_pos ⟨List.mem_cons_of_mem _ hB.1, hB.2⟩]
        · have hB' : ¬(c' ∈ rest
              ∧ ¬(c' ∈ (step d c0).cols
                  ∧ clean (rget ((step d c0).rows.getD j []) c') ≠ "")) := by
            rintro ⟨hm, hneg⟩
            apply hB
            refine ⟨hm, ?_⟩
            rintro ⟨hm2, hcl2⟩
            apply hneg
            refine ⟨hcols'.2 hm2, ?_⟩
            rw [hstepval]
            exact hcl2
          rw [if_neg hB', hstepval]
          have hBneg : ¬(c' ∈ c0 :: rest
              ∧ ¬(c' ∈ d.cols ∧ clean (rget (d.rows.getD j []) c') ≠ "")) := by
            rintro ⟨hm, hneg⟩
            rcases List.mem_cons.1 hm with h' | h'
            · exact hcc h'
            · exact hB ⟨h', hneg⟩
          rw [if_neg hBneg]

theorem clean_PLACEHOLDER : clean PLACEHOLDER ≠ "" := by decide

theorem clean_NO_DATA : clean NO_DATA_PLACEHOLDER ≠ "" := by decide

theorem apply_required_placeholders_char (required : List String) (df : Table) :
    (apply_required_placeholders required df).rows.length = df.rows.length ∧
    (∀ c', c' ∈ (apply_required_placeholders required df).cols
      ↔ c' ∈ df.cols ∨ c' ∈ required) ∧
    (∀ j, j < df.rows.length → ∀ c',
      rget ((apply_required_placeholders required df).rows.getD j []) c' =
        if c' ∈ required ∧ ¬(c' ∈ df.cols ∧ clean (rget (df.rows.getD j []) c') ≠ "")
        then PLACEHOLDER
        else rget (df.rows.getD j []) c') :=
  backfill_fold_char clean_PLACEHOLDER merge_backfill_cols merge_backfill_len
    (fun d c {j} hj c' => merge_backfill_rget d c hj c') required df

theorem registry_apply_required_placeholders_char (required : List String) (df : Table) :
    (registry_apply_required_placeholders required df).rows.length = df.rows.length ∧
    (∀ c', c' ∈ (registry_apply_required_placeholders required df).cols
      ↔ c' ∈ df.cols ∨ c' ∈ required) ∧
    (∀ j, j < df.rows.length → ∀ c',
      rget ((registry_apply_required_placeholders required df).rows.getD j []) c' =
        if c' ∈ required ∧ ¬(c' ∈ df.cols ∧ clean (rget (df.rows.getD j []) c') ≠ "")
        then NO_DATA_PLACEHOLDER
        else rget (df.rows.getD j []) c') :=
  backfill_fold_char clean_NO_DATA registry_backfill_cols registry_backfill_len
    (fun d c {j} hj c' => registry_backfill_rget d c hj c') required df

/-- Claim C5: after the required-field backfill no required column holds a
blank value; every value that was blank (or whose column was absent) equals
the stage's placeholder literal; and the merged-investor stage and the
registry stage use two distinct literals. -/
theorem c5_backfill_totality (required : List String) (df : Table) {c : String}
    (hc : c ∈ required) {j : Nat} (hj : j < df.rows.length) :
    (c ∈ (apply_required_placeholders required df).cols ∧
      clean (rget ((apply_required_placeholders required df).rows.getD j []) c) ≠ "" ∧
      (¬(c ∈ df.cols ∧ clean (rget (df.rows.getD j []) c) ≠ "") →
        rget ((apply_required_placeholders required df).rows.getD j []) c = PLACEHOLDER)) ∧
    (c ∈ (registry_apply_required_placeholders required df).cols ∧
      clean (rget ((registry_apply_required_placeholders required df).rows.getD j []) c)
        ≠ "" ∧
      (¬(c ∈ df.cols ∧ clean (rget (df.rows.getD j []) c) ≠ "") →
        rget ((registry_apply_required_placeholders required df).rows.getD j []) c
          = NO_DATA_PLACEHOLDER)) ∧
    PLACEHOLDER ≠ NO_DATA_PLACEHOLDER := by
  obtain ⟨hlen1, hcols1, hval1⟩ := apply_required_placeholders_char required df
  obtain ⟨hlen2, hcols2, hval2⟩ := registry_apply_required_placeholders_char required df
  refine ⟨⟨(hcols1 c).2 (Or.inr hc), ?_, ?_⟩, ⟨(hcols2 c).2 (Or.inr hc), ?_, ?_⟩, by decide⟩
  · rw [hval1 j hj c]
    by_cases hA : c ∈ df.cols ∧ clean (rget (df.rows.getD j []) c) ≠ ""
    · rw [if_neg (fun hand => hand.2 hA)]
      exact hA.2
    · rw [if_pos ⟨hc, hA⟩]
      exact clean_PLACEHOLDER
  · intro hA
    rw [hval1 j hj c, if_pos ⟨hc, hA⟩]
  · rw [hval2 j hj c]
    by_cases hA : c ∈ df.cols ∧ clean (rget (df.rows.getD j []) c) ≠ ""
    · rw [if_neg (fun hand => hand.2 hA)]
      exact hA.2
    · rw [if_pos ⟨hc, hA⟩]
      exact clean_NO_DATA
  · intro hA
    rw [hval2 j hj c, if_pos ⟨hc, hA⟩]

/-- Witness for C5: one required column, one blank single-row table. -/
theorem c5_backfill_totality_witness :
    ("A" ∈ (apply_required_placeholders ["A"] ⟨[], [[]]⟩).cols ∧
      clean (rget ((apply_required_placeholders ["A"] ⟨[], [[]]⟩).rows.getD 0 []) "A")
        ≠ "" ∧
      (¬("A" ∈ (Table.mk [] [[]]).cols
          ∧ clean (rget ((Table.mk [] [[]]).rows.getD 0 []) "A") ≠ "") →
        rget ((apply_required_placeholders ["A"] ⟨[], [[]]⟩).rows.getD 0 []) "A"
          = PLACEHOLDER)) ∧
    ("A" ∈ (registry_apply_required_placeholders ["A"] ⟨[], [[]]⟩).cols ∧
      clean (rget ((registry_apply_required_placeholders ["A"] ⟨[], [[]]⟩).rows.getD 0 [])
        "A") ≠ "" ∧
      (¬("A" ∈ (Table.mk [] [[]]).cols
          ∧ clean (rget ((Table.mk [] [[]]).rows.getD 0 []) "A") ≠ "") →
        rget ((registry_apply_required_placeholders ["A"] ⟨[], [[]]⟩).rows.getD 0 []) "A"
          = NO_DATA_PLACEHOLDER)) ∧
    PLACEHOLDER ≠ NO_DATA_PLACEHOLDER :=
  c5_backfill_totality ["A"] ⟨[], [[]]⟩ (by decide) (by decide)

theorem getCol_eq_of_rget {d1 d2 : Table} {c : String}
    (hlen : d1.rows.length = d2.rows.length)
    (h : ∀ j, j < d2.rows.length →
      rget (d1.rows.getD j []) c = rget (d2.rows.getD j []) c) :
    getCol d1 c = getCol d2 c := by
  unfold getCol
  apply List.ext_getElem (by simpa using hlen)
  intro n h1 h2
  rw [List.getElem_map, List.getElem_map]
  have hn2 : n < d2.rows.length := by simpa using h2
  have hn1 : n < d1.rows.length := by rw [hlen]; exact hn2
  have := h n hn2
  rw [List.getD_eq_getElem _ _ hn1, List.getD_eq_getElem _ _ hn2] at this
  exact this

/-- Claim C10: the backfill's frame — a column outside the required list is
left entirely unchanged (both stages), and a required column's value that is
already non-blank after trimming passes through unmodified (both stages). -/
theorem c10_backfill_frame (required : List String) (df : Table) (c' : String)
    (hnr : c' ∉ required) (c2 : String) (hc2 : c2 ∈ required) (hc2c : c2 ∈ df.cols)
    {j : Nat} (hj : j < df.rows.length)
    (hne : clean (rget (df.rows.getD j []) c2) ≠ "") :
    getCol (apply_required_placeholders required df) c' = getCol df c' ∧
    getCol (registry_apply_required_placeholders required df) c' = getCol df c' ∧
    rget ((apply_required_placeholders required df).rows.getD j []) c2
      = rget (df.rows.getD j []) c2 ∧
    rget ((registry_apply_required_placeholders required df).rows.getD j []) c2
      = rget (df.rows.getD j []) c2 := by
  obtain ⟨hlen1, hcols1, hval1⟩ := apply_required_placeholders_char required df
  obtain ⟨hlen2, hcols2, hval2⟩ := registry_apply_required_placeholders_char required df
  refine ⟨?_, ?_, ?_, ?_⟩
  · apply getCol_eq_of_rget hlen1
    intro i hi
    rw [hval1 i hi c', if_neg (fun hand => hnr hand.1)]
  · apply getCol_eq_of_rget hlen2
    intro i hi
    rw [hval2 i hi c', if_neg (fun hand => hnr hand.1)]
  · rw [hval1 j hj c2, if_neg (fun hand => hand.2 ⟨hc2c, hne⟩)]
  · rw [hval2 j hj c2, if_neg (fun hand => hand.2 ⟨hc2c, hne⟩)]

/-- Witness for C10: required column A kept (value non-blank), column B
outside the required list untouched. -/
theorem c10_backfill_frame_witness :
    getCol (apply_required_placeholders ["A"] ⟨["A", "B"], [[("A", "x"), ("B", "y")]]⟩) "B"
      = getCol ⟨["A", "B"], [[("A", "x"), ("B", "y")]]⟩ "B" ∧
    getCol (registry_apply_required_placeholders ["A"]
        ⟨["A", "B"], [[("A", "x"), ("B", "y")]]⟩) "B"
      = getCol ⟨["A", "B"], [[("A", "x"), ("B", "y")]]⟩ "B" ∧
    rget ((apply_required_placeholders ["A"]
        ⟨["A", "B"], [[("A", "x"), ("B", "y")]]⟩).rows.getD 0 []) "A"
      = rget ((Table.mk ["A", "B"] [[("A", "x"), ("B", "y")]]).rows.getD 0 []) "A" ∧
    rget ((registry_apply_required_placeholders ["A"]
        ⟨["A", "B"], [[("A", "x"), ("B", "y")]]⟩).rows.getD 0 []) "A"
      = rget ((Table.mk ["A", "B"] [[("A", "x"), ("B", "y")]]).rows.getD 0 []) "A" :=
  c10_backfill_frame ["A"] ⟨["A", "B"], [[("A", "x"), ("B", "y")]]⟩ "B" (by decide) "A"
    (by decide) (by decide) (by decide) (by decide)

/-! ### Missing expected columns -/

theorem addcol_fold_len (L : List String) : ∀ d : Table,
    (L.foldl add_empty_col_step d).rows.length = d.rows.length := by
  induction L with
  | nil => intro d; rfl
  | cons c L ih =>
    intro d
    show (L.foldl add_empty_col_step (add_empty_col_step d c)).rows.length = _
    rw [ih, add_empty_col_len]

theorem addcol_fold_mem (L : List String) : ∀ (d : Table) (c : String),
    c ∈ (L.foldl add_empty_col_step d).cols ↔ c ∈ d.cols ∨ c ∈ L := by
  induction L with
  | nil =>
    intro d c
    simp
  | cons c0 L ih =>
    intro d c
    show c ∈ (L.foldl add_empty_col_step (add_empty_col_step d c0)).cols ↔ _
    rw [ih]
    have hstep : c ∈ (add_empty_col_step d c0).cols ↔ c ∈ d.cols ∨ c = c0 := by
      rw [add_empty_col_cols]
      by_cases h : c0 ∈ d.cols
      · rw [if_pos h]
        constructor
        · exact Or.inl
        · rintro (h' | rfl)
          · exact h'
          · exact h
      · rw [if_neg h]
        rw [List.mem_append, List.mem_singleton]
    rw [hstep, List.mem_cons]
    tauto

theorem addcol_fold_rget (L : List String) : ∀ (d : Table) {j : Nat}, L.Nodup →
    j < d.rows.length → ∀ c : String,
    rget ((L.foldl add_empty_col_step d).rows.getD j []) c
      = if c ∈ L ∧ c ∉ d.cols then "" else rget (d.rows.getD j []) c := by
  induction L with
  | nil =>
    intro d j _ hj c
    rw [if_neg (fun hand => List.not_mem_nil c hand.1)]
    rfl
  | cons c0 L ih =>
    intro d j hnd hj c
    rw [List.nodup_cons] at hnd
    have hj1 : j < (add_empty_col_step d c0).rows.length := by
      rw [add_empty_col_len]
      exact hj
    show rget ((L.foldl add_empty_col_step (add_empty_col_step d c0)).rows.getD j []) c = _
    rw [ih _ hnd.2 hj1 c, add_empty_col_rget d c0 hj c]
    have hstep : c ∈ (add_empty_col_step d c0).cols ↔ c ∈ d.cols ∨ c = c0 := by
      rw [add_empty_col_cols]
      by_cases h : c0 ∈ d.cols
      · rw [if_pos h]
        constructor
        · exact Or.inl
        · rintro (h' | rfl)
          · exact h'
          · exact h
      · rw [if_neg h]
        rw [List.mem_append, List.mem_singleton]
    by_cases hcc : c = c0
    · have hcL : c ∉ L := by
        rw [hcc]
        exact hnd.1
      rw [if_neg (fun hand => hcL hand.1)]
      by_cases hin : c0 ∈ d.cols
      · rw [if_neg (fun hand => hand.2 hin),
          if_neg (fun hand => hand.2 (by rw [hcc]; exact hin))]
      · rw [if_pos ⟨hcc, hin⟩, if_pos ⟨by rw [hcc]; exact List.mem_cons_self _ _,
          by rw [hcc]; exact hin⟩]
    · rw [if_neg (show ¬(c = c0 ∧ c0 ∉ d.cols) from fun hand => hcc hand.1)]
      by_cases hB : c ∈ L ∧ c ∉ d.cols
      · rw [if_pos (show c ∈ L ∧ c ∉ (add_empty_col_step d c0).cols from
            ⟨hB.1, fun hm => hB.2 ((hstep.1 hm).resolve_right hcc)⟩),
          if_pos (show c ∈ c0 :: L ∧ c ∉ d.cols from
            ⟨List.mem_cons_of_mem _ hB.1, hB.2⟩)]
      · have hB1 : ¬(c ∈ L ∧ c ∉ (add_empty_col_step d c0).cols) := by
          rintro ⟨hm, hneg⟩
          exact hB ⟨hm, fun hin => hneg (hstep.2 (Or.inl hin))⟩
        have hB2 : ¬(c ∈ c0 :: L ∧ c ∉ d.cols) := by
          rintro ⟨hm, hneg⟩
          rcases List.mem_cons.1 hm with h' | h'
          · exact hcc h'
          · exact hB ⟨h', hneg⟩
        rw [if_neg hB1, if_neg hB2]

theorem MERGE_COLS_nodup : MERGE_COLS.Nodup := by decide

theorem merge_all_ensure_some (df : Table) :
    merge_all (ensure_cols df) = some ⟨MERGE_COLS, mergeAllRows (ensure_cols df)⟩ := by
  unfold merge_all
  rw [if_pos]
  refine ⟨?_, ?_, ?_⟩
  · exact (addcol_fold_mem MERGE_COLS df _).2 (Or.inr (by decide))
  · exact (addcol_fold_mem MERGE_COLS df _).2 (Or.inr (by decide))
  · exact (addcol_fold_mem MERGE_COLS df _).2 (Or.inr (by decide))

/-- Claim C8: an expected merge column absent from the input table does not
break processing — `main` materialises it as an entirely empty column
aligned to the row count, the standardization accessor `col` synthesises a
blank column aligned to the row count, and the merge pipeline completes
successfully. -/
theorem c8_missing_column (df : Table) (required : List String) (c : String)
    (hc : c ∈ MERGE_COLS) (habs : c ∉ df.cols) :
    (c ∈ (ensure_cols df).cols ∧
      (ensure_cols df).rows.length = df.rows.length ∧
      getCol (ensure_cols df) c = List.replicate df.rows.length "") ∧
    col df c = List.replicate df.rows.length "" ∧
    (∃ t, main_merge required df = some t) := by
  have hlen : (ensure_cols df).rows.length = df.rows.length := by
    unfold ensure_cols
    exact addcol_fold_len MERGE_COLS df
  refine ⟨⟨?_, hlen, ?_⟩, ?_, ?_⟩
  · unfold ensure_cols
    exact (addcol_fold_mem MERGE_COLS df c).2 (Or.inr hc)
  · unfold getCol
    apply List.ext_getElem
    · rw [List.length_map, List.length_replicate]
      exact hlen
    · intro n h1 h2
      have hn : n < df.rows.length := by
        rw [List.length_replicate] at h2
        exact h2
      have hn1 : n < (ensure_cols df).rows.length := by
        rw [hlen]
        exact hn
      rw [List.getElem_map, List.getElem_replicate,
        ← List.getD_eq_getElem (ensure_cols df).rows [] hn1]
      show rget ((MERGE_COLS.foldl add_empty_col_step df).rows.getD n []) c = ""
      rw [addcol_fold_rget MERGE_COLS df MERGE_COLS_nodup hn c, if_pos ⟨hc, habs⟩]
  · unfold col
    rw [if_neg habs]
  · unfold main_merge
    rw [merge_all_ensure_some df]
    exact ⟨_, rfl⟩

/-- Witness for C8: a one-row table with no columns at all. -/
theorem c8_missing_column_witness :
    ("Email" ∈ (ensure_cols ⟨[], [[]]⟩).cols ∧
      (ensure_cols ⟨[], [[]]⟩).rows.length = (Table.mk [] [[]]).rows.length ∧
      getCol (ensure_cols ⟨[], [[]]⟩) "Email"
        = List.replicate (Table.mk [] [[]]).rows.length "") ∧
    col ⟨[], [[]]⟩ "Email" = List.replicate (Table.mk [] [[]]).rows.length "" ∧
    (∃ t, main_merge [] ⟨[], [[]]⟩ = some t) :=
  c8_missing_column ⟨[], [[]]⟩ [] "Email" (by decide) (by decide)

/-! ### Decimal identifiers -/

theorem digitChar_isDigit {m : Nat} (h : m < 10) : (Nat.digitChar m).isDigit = true := by
  interval_cases m <;> decide

theorem digitChar_toNat {m : Nat} (h : m < 10) : (Nat.digitChar m).toNat = 48 + m := by
  interval_cases m <;> decide

theorem toDigitsCore_length_ge : ∀ (fuel n : Nat) (ds : List Char),
    ds.length ≤ (Nat.toDigitsCore 10 fuel n ds).length := by
  intro fuel
  induction fuel with
  | zero =>
    intro n ds
    exact Nat.le_refl _
  | succ f ih =>
    intro n ds
    simp only [Nat.toDigitsCore]
    split
    · simp
    · have := ih (n / 10) (Nat.digitChar (n % 10) :: ds)
      simp only [List.length_cons] at this
      omega

theorem toDigitsCore_succ_len (f n : Nat) (ds : List Char) :
    ds.length + 1 ≤ (Nat.toDigitsCore 10 (f + 1) n ds).length := by
  simp only [Nat.toDigitsCore]
  split
  · simp
  · have := toDigitsCore_length_ge f (n / 10) (Nat.digitChar (n % 10) :: ds)
    simp only [List.length_cons] at this
    omega

theorem toDigitsCore_digits : ∀ (fuel n : Nat) (ds : List Char),
    (∀ c ∈ ds, c.isDigit = true) →
    ∀ c ∈ Nat.toDigitsCore 10 fuel n ds, c.isDigit = true := by
  intro fuel
  induction fuel with
  | zero =>
    intro n ds hds
    exact hds
  | succ f ih =>
    intro n ds hds c hc
    simp only [Nat.toDigitsCore] at hc
    have hcons : ∀ c' ∈ Nat.digitChar (n % 10) :: ds, c'.isDigit = true := by
      intro c' hc'
      rcases List.mem_cons.1 hc' with rfl | h'
      · exact digitChar_isDigit (by omega)
      · exact hds _ h'
    split at hc
    · exact hcons c hc
    · exact ih (n / 10) _ hcons c hc

theorem repr_data_digits (n : Nat) : ∀ c ∈ (Nat.repr n).data, c.isDigit = true := by
  intro c hc
  exact toDigitsCore_digits (n + 1) n [] (by simp) c hc

theorem repr_ne_empty (n : Nat) : Nat.repr n ≠ "" := by
  intro h
  have h2 : (Nat.repr n).data = [] := by
    rw [h]
  have h3 := toDigitsCore_succ_len n n []
  have h4 : (Nat.repr n).data = Nat.toDigitsCore 10 (n + 1) n [] := rfl
  rw [h4] at h2
  rw [h2] at h3
  simp at h3

theorem digit_not_ws {c : Char} (h : c.isDigit = true) : c.isWhitespace = false := by
  cases hw : c.isWhitespace
  · rfl
  · exfalso
    have hcases : ((c = ' ' ∨ c = '\t') ∨ c = '\x0d') ∨ c = '\n' := by
      simpa [Char.isWhitespace] using hw
    rcases hcases with ((rfl | rfl) | rfl) | rfl <;> exact absurd h (by decide)

theorem dropWhile_ws_digits {l : List Char} (hl : ∀ c ∈ l, c.isDigit = true) :
    l.dropWhile Char.isWhitespace = l := by
  cases l with
  | nil => rfl
  | cons a t =>
    rw [List.dropWhile_cons, if_neg]
    rw [digit_not_ws (hl a (by simp))]
    simp

theorem clean_of_digits {s : String} (h : ∀ c ∈ s.data, c.isDigit = true) :
    clean s = s := by
  unfold clean
  rw [dropWhile_ws_digits h,
    dropWhile_ws_digits (fun c hc => h c (List.mem_reverse.1 hc)),
    List.reverse_reverse]

theorem clean_repr_ne (n : Nat) : clean (Nat.repr n) ≠ "" := by
  rw [clean_of_digits (repr_data_digits n)]
  exact repr_ne_empty n

theorem decDigits_cons (c : Char) (cs : List Char) (a : Nat) :
    decDigits (c :: cs) a = decDigits cs (10 * a + (c.toNat - 48)) := rfl

theorem toDigitsCore_dec : ∀ (fuel n : Nat), n < fuel → ∀ (ds : List Char) (a : Nat),
    ∃ P, 0 < P ∧ n < P ∧
      decDigits (Nat.toDigitsCore 10 fuel n ds) a = decDigits ds (a * P + n) := by
  intro fuel
  induction fuel with
  | zero =>
    intro n h
    omega
  | succ f ih =>
    intro n hn ds a
    simp only [Nat.toDigitsCore]
    by_cases h0 : n / 10 = 0
    · rw [if_pos h0]
      refine ⟨10, by omega, by omega, ?_⟩
      rw [decDigits_cons, digitChar_toNat (by omega : n % 10 < 10)]
      exact congrArg (decDigits ds) (by omega)
    · rw [if_neg h0]
      obtain ⟨P, hP, hnP, heq⟩ := ih (n / 10) (by omega) (Nat.digitChar (n % 10) :: ds) a
      refine ⟨10 * P, by omega, by omega, ?_⟩
      rw [heq, decDigits_cons, digitChar_toNat (by omega : n % 10 < 10)]
      apply congrArg (decDigits ds)
      rw [Nat.mul_left_comm a 10 P]
      omega

theorem decDigits_repr (n : Nat) : decDigits (Nat.repr n).data 0 = n := by
  obtain ⟨P, hP, hnP, heq⟩ := toDigitsCore_dec (n + 1) n (by omega) [] 0
  have h4 : (Nat.repr n).data = Nat.toDigitsCore 10 (n + 1) n [] := rfl
  rw [h4, heq]
  show 0 * P + n = n
  omega

theorem repr_injective {m n : Nat} (h : Nat.repr m = Nat.repr n) : m = n := by
  have h1 := decDigits_repr m
  have h2 := decDigits_repr n
  rw [h] at h1
  exact h1.symm.trans h2

theorem getD_map_range {α : Type} (f : Nat → α) (dflt : α) {N j : Nat} (hj : j < N) :
    ((List.range N).map f).getD j dflt = f j := by
  rw [List.getD_eq_getElem _ _ (by simpa using hj), List.getElem_map, List.getElem_range]

theorem addcol_fold_id (L : List String) : ∀ d : Table, (∀ c ∈ L, c ∈ d.cols) →
    L.foldl add_empty_col_step d = d := by
  induction L with
  | nil =>
    intro d _
    rfl
  | cons c L ih =>
    intro d hall
    show L.foldl add_empty_col_step (add_empty_col_step d c) = d
    have hstep : add_empty_col_step d c = d := by
      unfold add_empty_col_step
      rw [if_pos (hall c (by simp))]
    rw [hstep]
    exact ih d (fun c' hc' => hall c' (by simp [hc']))

theorem OUT_COLS_sub_insert : ∀ c ∈ OUT_COLS, c ∈ "Account ID" :: MERGE_COLS := by decide

theorem accId_mem_OUT : "Account ID" ∈ OUT_COLS := by decide

theorem insert_rows_len (t : Table) :
    (insert_account_ids t).rows.length = t.rows.length := by
  unfold insert_account_ids
  rw [List.length_map, List.length_range]

theorem insert_row (t : Table) {j : Nat} (hj : j < t.rows.length) :
    (insert_account_ids t).rows.getD j []
      = ("Account ID", Nat.repr (j + 1)) :: t.rows.getD j [] := by
  unfold insert_account_ids
  exact getD_map_range _ _ hj

theorem project_rows_len (t : Table) (h : ∀ c ∈ OUT_COLS, c ∈ t.cols) :
    (project_out_cols t).rows.length = t.rows.length := by
  unfold project_out_cols
  rw [addcol_fold_id OUT_COLS t h]
  exact List.length_map _ _

theorem project_row_accid (t : Table) (h : ∀ c ∈ OUT_COLS, c ∈ t.cols) {j : Nat}
    (hj : j < t.rows.length) :
    rget ((project_out_cols t).rows.getD j []) "Account ID"
      = rget (t.rows.getD j []) "Account ID" := by
  unfold project_out_cols
  rw [addcol_fold_id OUT_COLS t h]
  show rget ((t.rows.map _).getD j []) "Account ID" = _
  rw [getD_map_rows _ hj]
  exact rget_map_mk accId_mem_OUT

set_option maxHeartbeats 1000000 in
/-- Claim C6: the `Account ID` column of the merged output is exactly the
decimal forms of 1..N in order, where N is the number of clusters (= merged
rows); the identifiers are unique, 1-based, sequential and gap-free. -/
theorem c6_account_ids (required : List String) (df : Table) :
    ∃ final : Table, main_merge required df = some final ∧
      getCol final "Account ID"
        = (List.range (mergeAllRows (ensure_cols df)).length).map
            (fun k => Nat.repr (k + 1)) ∧
      (getCol final "Account ID").Nodup ∧
      (∀ m : Nat,
        m ∈ (List.range (mergeAllRows (ensure_cols df)).length).map (· + 1)
          ↔ 1 ≤ m ∧ m ≤ (mergeAllRows (ensure_cols df)).length) := by
  have hmain : main_merge required df
      = some (apply_required_placeholders required
          (project_out_cols
            (insert_account_ids ⟨MERGE_COLS, mergeAllRows (ensure_cols df)⟩))) := by
    unfold main_merge
    rw [merge_all_ensure_some df]
  have hsub : ∀ c ∈ OUT_COLS,
      c ∈ (insert_account_ids ⟨MERGE_COLS, mergeAllRows (ensure_cols df)⟩).cols := by
    intro c hc
    exact OUT_COLS_sub_insert c hc
  have hN : (insert_account_ids
      ⟨MERGE_COLS, mergeAllRows (ensure_cols df)⟩).rows.length
      = (mergeAllRows (ensure_cols df)).length := by
    unfold insert_account_ids
    rw [List.length_map, List.length_range]
  have hplen : (project_out_cols
      (insert_account_ids ⟨MERGE_COLS, mergeAllRows (ensure_cols df)⟩)).rows.length
      = (mergeAllRows (ensure_cols df)).length := by
    rw [project_rows_len _ hsub, hN]
  obtain ⟨hflen, hfcols, hfval⟩ := apply_required_placeholders_char required
    (project_out_cols (insert_account_ids ⟨MERGE_COLS, mergeAllRows (ensure_cols df)⟩))
  have hrowval : ∀ j, j < (mergeAllRows (ensure_cols df)).length →
      rget ((apply_required_placeholders required
        (project_out_cols
          (insert_account_ids ⟨MERGE_COLS, mergeAllRows (ensure_cols df)⟩))).rows.getD
            j []) "Account ID"
      = Nat.repr (j + 1) := by
    intro j hj
    have hj3 : j < (project_out_cols
        (insert_account_ids ⟨MERGE_COLS, mergeAllRows (ensure_cols df)⟩)).rows.length := by
      rw [hplen]
      exact hj
    have hj1 : j < (insert_account_ids
        ⟨MERGE_COLS, mergeAllRows (ensure_cols df)⟩).rows.length := by
      rw [hN]
      exact hj
    have hv : rget ((project_out_cols
        (insert_account_ids ⟨MERGE_COLS, mergeAllRows (ensure_cols df)⟩)).rows.getD j [])
          "Account ID" = Nat.repr (j + 1) := by
      rw [project_row_accid _ hsub hj1, insert_row _ (by rw [← hN]; exact hj1)]
      show (if "Account ID" = "Account ID" then Nat.repr (j + 1) else _) = Nat.repr (j + 1)
      rw [if_pos rfl]
    rw [hfval j hj3 "Account ID", hv]
    rw [if_neg]
    rintro ⟨_, hneg⟩
    apply hneg
    refine ⟨?_, ?_⟩
    · show "Account ID" ∈ OUT_COLS
      exact accId_mem_OUT
    · exact clean_repr_ne (j + 1)
  refine ⟨_, hmain, ?_, ?_, ?_⟩
  · unfold getCol
    apply List.ext_getElem
    · rw [List.length_map, List.length_map, List.length_range, hflen, hplen]
    · intro n h1 h2
      have hn : n < (mergeAllRows (ensure_cols df)).length := by
        rw [List.length_map, List.length_range] at h2
        exact h2
      have hn1 : n < (apply_required_placeholders required
          (project_out_cols
            (insert_account_ids
              ⟨MERGE_COLS, mergeAllRows (ensure_cols df)⟩))).rows.length := by
        rw [hflen, hplen]
        exact hn
      rw [List.getElem_map, List.getElem_map, List.getElem_range,
        ← List.getD_eq_getElem _ [] hn1]
      exact hrowval n hn
  · have hcol : getCol (apply_required_placeholders required
        (project_out_cols
          (insert_account_ids ⟨MERGE_COLS, mergeAllRows (ensure_cols df)⟩)))
          "Account ID"
        = (List.range (mergeAllRows (ensure_cols df)).length).map
            (fun k => Nat.repr (k + 1)) := by
      unfold getCol
      apply List.ext_getElem
      · rw [List.length_map, List.length_map, List.length_range, hflen, hplen]
      · intro n h1 h2
        have hn : n < (mergeAllRows (ensure_cols df)).length := by
          rw [List.length_map, List.length_range] at h2
          exact h2
        have hn1 : n < (apply_required_placeholders required
            (project_out_cols
              (insert_account_ids
                ⟨MERGE_COLS, mergeAllRows (ensure_cols df)⟩))).rows.length := by
          rw [hflen, hplen]
          exact hn
        rw [List.getElem_map, List.getElem_map, List.getElem_range,
          ← List.getD_eq_getElem _ [] hn1]
        exact hrowval n hn
    rw [hcol]
    apply List.Nodup.map
    · intro a b hab
      have := repr_injective hab
      omega
    · exact List.nodup_range _
  · intro m
    simp only [List.mem_map, List.mem_range]
    constructor
    · rintro ⟨a, ha, rfl⟩
      omega
    · rintro ⟨h1, h2⟩
      exact ⟨m - 1, by omega, by omega⟩

end CRM
